import Mathlib

/-!
Verification of the MeScience explanation service.

The service (src/main.py and src/api/index.py) exposes one operation,
`explain_topic`: it checks the `GOOGLE_API_KEY` credential, composes a prompt
from a fixed system instruction and the caller's topic, invokes the external
completion capability once, strips code-fence markers from the returned text,
trims whitespace, and attempts to decode the cleaned text as JSON; on decode
failure it substitutes a fixed six-field fallback object, and any other
failure is surfaced as an HTTP 500 carrying the underlying message.

This file embeds that logic shallowly:
* `Json` models the values produced by Python's `json.loads`; numbers are
  represented by their source lexeme (the claims under study never compare
  numeric magnitudes, only whole decoded values produced by the same
  decoder), and the special constants NaN, Infinity and negative Infinity
  accepted by the stdlib decoder are number lexemes too.
* `pv` / `loads` model the stdlib JSON decoder: leading/trailing JSON
  whitespace, strings with escape sequences, strict rejection of raw control
  characters, the RFC number grammar with the leading-zero rule, arrays and
  objects with last-wins duplicate keys. (Python's recursion limit on deeply
  nested input is not modelled; no claim depends on it.  An unpaired
  surrogate `\u` escape is accepted exactly as the stdlib decoder accepts
  it; the lone code unit, which Lean's `Char` cannot carry, is denoted
  through `Char.ofNat`'s total encoding, so the stand-in affects only the
  decoded value of such strings, never whether decoding succeeds.)
* `stripJsonFence` and `stripTicks` model the two `str.replace(pat, "")`
  calls: a single left-to-right pass removing non-overlapping occurrences.
* `pyStripL` models `str.strip()`, with `pyWs` holding the full
  `str.isspace()` character set.
* `explainWith` models the route handler, taking the upstream completion
  capability as an oracle `String → Upstream` and counting its invocations.
-/

/-- JSON values as produced by the standard-library decoder.  Object members
keep insertion order, as Python dicts do; `num` stores the numeric lexeme. -/
inductive Json where
  | null : Json
  | bool (b : Bool) : Json
  | num (lexeme : String) : Json
  | str (s : String) : Json
  | arr (items : List Json) : Json
  | obj (members : List (String × Json)) : Json

/-- JSON whitespace: the only characters `json.loads` skips between tokens. -/
def jWs (c : Char) : Bool :=
  c = ' ' || c = '\t' || c = '\n' || c = '\r'

/-- Skip JSON whitespace. -/
def skipWs (cs : List Char) : List Char :=
  cs.dropWhile jWs

/-- Python `str.strip()` whitespace: the characters `str.isspace()` accepts
(CPython: U+0009 to U+000D, U+001C to U+001F, U+0020, U+0085, U+00A0,
U+1680, U+2000 to U+200A, U+2028, U+2029, U+202F, U+205F, U+3000). -/
def pyWs (c : Char) : Bool :=
  c = ' ' || c = '\t' || c = '\n' || c = '\r' || c = '\x0b' || c = '\x0c' ||
  ('\x1c' ≤ c && c ≤ '\x1f') || c = '\x85' || c = '\xa0' || c = '\u1680' ||
  ('\u2000' ≤ c && c ≤ '\u200a') || c = '\u2028' || c = '\u2029' ||
  c = '\u202f' || c = '\u205f' || c = '\u3000'

/-- Python `str.strip()`: drop leading and trailing whitespace. -/
def pyStripL (l : List Char) : List Char :=
  List.rdropWhile pyWs (List.dropWhile pyWs l)

/-- Value of a hexadecimal digit, as used in `\u` escapes. -/
def hexVal (c : Char) : Option Nat :=
  if '0' ≤ c ∧ c ≤ '9' then some (c.toNat - 48)
  else if 'a' ≤ c ∧ c ≤ 'f' then some (c.toNat - 87)
  else if 'A' ≤ c ∧ c ≤ 'F' then some (c.toNat - 55)
  else none

/-- Single-character escape sequences of JSON strings. -/
def escChar (c : Char) : Option Char :=
  if c = '"' then some '"'
  else if c = '\\' then some '\\'
  else if c = '/' then some '/'
  else if c = 'b' then some '\x08'
  else if c = 'f' then some '\x0c'
  else if c = 'n' then some '\n'
  else if c = 'r' then some '\r'
  else if c = 't' then some '\t'
  else none

/-- Read four hexadecimal digits (the payload of a `\u` escape), returning
their value and the remaining input. -/
def hex4 (cs : List Char) : Option (Nat × List Char) :=
  match cs with
  | h1 :: h2 :: h3 :: h4 :: rest =>
    match hexVal h1, hexVal h2, hexVal h3, hexVal h4 with
    | some a, some b, some c, some d => some (((a * 16 + b) * 16 + c) * 16 + d, rest)
    | _, _, _, _ => none
  | _ => none

/-- Surrogate-pair lookahead after a `\u` escape whose value `code` lies in
the high-surrogate range: exactly when that escape is immediately followed
by a second `\uXXXX` escape in the low-surrogate range do the two escapes
join into one supplementary-plane character.  In every other case the
caller emits the lone escape's code unit and rescans from the very next
character, as the stdlib decoder does. -/
def surrPair (code : Nat) (cs : List Char) : Option (Char × List Char) :=
  if 0xD800 ≤ code ∧ code ≤ 0xDBFF then
    match cs with
    | e1 :: e2 :: rest3 =>
      if e1 = '\\' ∧ e2 = 'u' then
        match hex4 rest3 with
        | some (lo, rest4) =>
          if 0xDC00 ≤ lo ∧ lo ≤ 0xDFFF then
            some (Char.ofNat (0x10000 + (code - 0xD800) * 0x400 + (lo - 0xDC00)), rest4)
          else none
        | none => none
      else none
    | _ => none
  else none

/-- Decode the body of a JSON string literal (the opening quote already
consumed), returning the decoded characters and the input after the closing
quote.  Raw control characters are rejected (`strict=True` behaviour).  A
`\u` escape in the high-surrogate range joins with an immediately following
low-surrogate escape; an unpaired surrogate escape is accepted, as in the
stdlib decoder, and its code unit — which Lean's `Char` cannot carry — is
denoted through `Char.ofNat`'s total encoding.  That stand-in affects only
the decoded value of such strings, never whether decoding succeeds. -/
def parseStrAux : Nat → List Char → Option (List Char × List Char)
  | 0, _ => none
  | fuel+1, cs =>
    match cs with
    | [] => none
    | c :: rest =>
      if c = '"' then some ([], rest)
      else if c = '\\' then
        match rest with
        | [] => none
        | e :: rest1 =>
          if e = 'u' then
            match hex4 rest1 with
            | none => none
            | some (code, rest2) =>
              match surrPair code rest2 with
              | some (cc, rest4) => (fun p => (cc :: p.1, p.2)) <$> parseStrAux fuel rest4
              | none => (fun p => (Char.ofNat code :: p.1, p.2)) <$> parseStrAux fuel rest2
          else
            match escChar e with
            | some ec => (fun p => (ec :: p.1, p.2)) <$> parseStrAux fuel rest1
            | none => none
      else if c.toNat < 32 then none
      else (fun p => (c :: p.1, p.2)) <$> parseStrAux fuel rest

/-- Integer part of a JSON number (sign already consumed): `0`, or a nonzero
digit followed by digits — the leading-zero rule of the RFC grammar. -/
def parseIntPart (cs : List Char) : Option (List Char × List Char) :=
  match cs with
  | [] => none
  | c :: rest =>
    if c = '0' then some ([c], rest)
    else if c.isDigit then
      some (c :: rest.takeWhile Char.isDigit, rest.dropWhile Char.isDigit)
    else none

/-- Optional fraction part: a dot must be followed by at least one digit. -/
def parseFrac (cs : List Char) : Option (List Char × List Char) :=
  match cs with
  | [] => some ([], [])
  | c :: rest =>
    if c = '.' then
      let ds := rest.takeWhile Char.isDigit
      if ds = [] then none
      else some ('.' :: ds, rest.dropWhile Char.isDigit)
    else some ([], c :: rest)

/-- Optional exponent part: `e`/`E`, optional sign, at least one digit. -/
def parseExp (cs : List Char) : Option (List Char × List Char) :=
  match cs with
  | [] => some ([], [])
  | e :: rest =>
    if e = 'e' ∨ e = 'E' then
      let sr : List Char × List Char :=
        match rest with
        | [] => ([], [])
        | d0 :: r1 =>
          if d0 = '+' then (['+'], r1)
          else if d0 = '-' then (['-'], r1)
          else ([], d0 :: r1)
      let ds := sr.2.takeWhile Char.isDigit
      if ds = [] then none
      else some (e :: sr.1 ++ ds, sr.2.dropWhile Char.isDigit)
    else some ([], e :: rest)

/-- Lex a JSON number (or one of the stdlib-accepted constants `NaN`,
`Infinity`, `-Infinity`), returning its lexeme and the remaining input. -/
def parseNumber (cs : List Char) : Option (String × List Char) :=
  if ['N', 'a', 'N'].isPrefixOf cs then some ("NaN", cs.drop 3)
  else if ['I', 'n', 'f', 'i', 'n', 'i', 't', 'y'].isPrefixOf cs then
    some ("Infinity", cs.drop 8)
  else if ['-', 'I', 'n', 'f', 'i', 'n', 'i', 't', 'y'].isPrefixOf cs then
    some ("-Infinity", cs.drop 9)
  else
    match cs with
    | [] => none
    | c :: rest =>
      if c = '-' then do
        let p1 ← parseIntPart rest
        let p2 ← parseFrac p1.2
        let p3 ← parseExp p2.2
        pure (String.mk ('-' :: (p1.1 ++ p2.1 ++ p3.1)), p3.2)
      else do
        let p1 ← parseIntPart (c :: rest)
        let p2 ← parseFrac p1.2
        let p3 ← parseExp p2.2
        pure (String.mk (p1.1 ++ p2.1 ++ p3.1), p3.2)

/-- Insert a key into an object under construction: a duplicate key replaces
the earlier value in place (CPython dict semantics, last value wins). -/
def insertKV : List (String × Json) → String → Json → List (String × Json)
  | [], k, v => [(k, v)]
  | (k0, v0) :: rest, k, v =>
    if k0 = k then (k0, v) :: rest else (k0, v0) :: insertKV rest k v

/-- Parsing mode: a whole value, or the element/member loop of an array or
object already opened. -/
inductive PMode where
  | top : PMode
  | arrLoop (acc : List Json) : PMode
  | objLoop (acc : List (String × Json)) : PMode

/-- The recursive JSON decoder (fuelled; the fuel is structural so that the
decoder evaluates inside the kernel).  In `top` mode the input starts at a
value; in the loop modes the input starts at the next element or member. -/
def pv : Nat → PMode → List Char → Option (Json × List Char)
  | 0, _, _ => none
  | fuel+1, PMode.top, cs =>
    match cs with
    | [] => none
    | c :: rest =>
      if c = '"' then
        (fun p => (Json.str (String.mk p.1), p.2)) <$> parseStrAux (rest.length + 1) rest
      else if c = '\x7b' then
        match skipWs rest with
        | [] => none
        | d2 :: r2 =>
          if d2 = '\x7d' then some (Json.obj [], r2)
          else pv fuel (PMode.objLoop []) (d2 :: r2)
      else if c = '[' then
        match skipWs rest with
        | [] => none
        | d2 :: r2 =>
          if d2 = ']' then some (Json.arr [], r2)
          else pv fuel (PMode.arrLoop []) (d2 :: r2)
      else if c = 't' then
        if ['r', 'u', 'e'].isPrefixOf rest then some (Json.bool true, rest.drop 3) else none
      else if c = 'f' then
        if ['a', 'l', 's', 'e'].isPrefixOf rest then some (Json.bool false, rest.drop 4) else none
      else if c = 'n' then
        if ['u', 'l', 'l'].isPrefixOf rest then some (Json.null, rest.drop 3) else none
      else
        (fun p => (Json.num p.1, p.2)) <$> parseNumber cs
  | fuel+1, PMode.arrLoop acc, cs =>
    match pv fuel PMode.top cs with
    | none => none
    | some (v, r1) =>
      match skipWs r1 with
      | [] => none
      | d2 :: r2 =>
        if d2 = ',' then pv fuel (PMode.arrLoop (acc ++ [v])) (skipWs r2)
        else if d2 = ']' then some (Json.arr (acc ++ [v]), r2)
        else none
  | fuel+1, PMode.objLoop acc, cs =>
    match cs with
    | [] => none
    | c :: rest =>
      if c = '"' then
        match parseStrAux (rest.length + 1) rest with
        | none => none
        | some (key, r1) =>
          match skipWs r1 with
          | [] => none
          | d2 :: r2 =>
            if d2 = ':' then
              match pv fuel PMode.top (skipWs r2) with
              | none => none
              | some (v, r3) =>
                match skipWs r3 with
                | [] => none
                | d3 :: r4 =>
                  if d3 = ',' then
                    pv fuel (PMode.objLoop (insertKV acc (String.mk key) v)) (skipWs r4)
                  else if d3 = '\x7d' then
                    some (Json.obj (insertKV acc (String.mk key) v), r4)
                  else none
            else none
      else none

/-- Fuel that certainly suffices for the decoder on an input of the given
length, by mode (the loop modes re-examine the current position once). -/
def pvNeed : PMode → Nat → Nat
  | PMode.top, len => 2 * len + 1
  | _, len => 2 * len + 2

/-- Model of `json.loads`: decode one value surrounded by optional JSON
whitespace; any other trailing data is an error. -/
def loads (s : String) : Option Json :=
  match pv (2 * s.length + 8) PMode.top (skipWs s.data) with
  | some (v, rest) => if skipWs rest = [] then some v else none
  | none => none

/-- The seven-character code-fence opener removed first by the cleanup. -/
def fence7 : List Char := ['\x60', '\x60', '\x60', 'j', 's', 'o', 'n']

/-- The triple backtick removed second by the cleanup. -/
def ticks3 : List Char := ['\x60', '\x60', '\x60']

/-- Model of Python's `str.replace(pat, '')` for a non-empty pattern: a
single left-to-right pass removing non-overlapping occurrences.  The fuel is
structural so the function evaluates inside the kernel; any fuel of at least
the input length gives the replacement's value. -/
def replaceOut (pat : List Char) : Nat → List Char → List Char
  | 0, l => l
  | fuel+1, l =>
    if pat.isPrefixOf l then replaceOut pat fuel (l.drop pat.length)
    else
      match l with
      | [] => []
      | c :: rest => c :: replaceOut pat fuel rest

/-- `text.replace('\x60\x60\x60json', '')`. -/
def stripJsonFence (l : List Char) : List Char :=
  replaceOut fence7 l.length l

/-- `text.replace('\x60\x60\x60', '')`. -/
def stripTicks (l : List Char) : List Char :=
  replaceOut ticks3 l.length l

/-- Whether `pat` occurs as a contiguous subsequence of the input. -/
def hasOcc (pat : List Char) : List Char → Bool
  | [] => pat.isPrefixOf []
  | c :: rest => pat.isPrefixOf (c :: rest) || hasOcc pat rest

/-- The service's cleanup of the raw model output, on character lists. -/
def cleanL (l : List Char) : List Char :=
  pyStripL (stripTicks (stripJsonFence l))

/-- `response.text.replace('\x60\x60\x60json', '').replace('\x60\x60\x60', '').strip()`. -/
def clean (s : String) : String :=
  String.mk (cleanL s.data)

/-- The fixed fallback object substituted when the cleaned text fails to
decode as JSON; `human_connection` carries the cleaned raw text. -/
def fallbackJson (cleaned : String) : Json :=
  Json.obj
    [("what_it_is", Json.str "Error parsing AI response."),
     ("human_connection", Json.str cleaned),
     ("social_influence", Json.str ""),
     ("relevant_studies", Json.str ""),
     ("confidence_level", Json.str "Low"),
     ("confidence_reason", Json.str "Format error")]

/-- Post-processing of the raw upstream text: clean, decode, and substitute
the fallback object on decode failure. -/
def postProcess (raw : String) : Json :=
  match loads (clean raw) with
  | some v => v
  | none => fallbackJson (clean raw)

/-- Outcome of one call to the external completion capability. -/
inductive Upstream where
  | ok (text : String) : Upstream
  | fail (msg : String) : Upstream

/-- What the route returns to the caller: an HTTP error (status, detail) or
a JSON body. -/
inductive ExplainResult where
  | httpError (status : Nat) (detail : String) : ExplainResult
  | ok (body : Json) : ExplainResult

/-- The observable outcome of one request: the response, and how many times
the external completion capability was invoked while serving it. -/
structure ExplainOutcome where
  result : ExplainResult
  upstreamCalls : Nat

/-- Python truthiness of the credential: `None` and the empty string are
both falsy (`if not GOOGLE_API_KEY`). -/
def keyTruthy : Option String → Bool
  | none => false
  | some s => !s.isEmpty

/-- The composed prompt: system instruction, the caller's topic, and the
JSON directive (the f-string of the handler). -/
def fullPromptWith (systemPrompt topic : String) : String :=
  systemPrompt ++ "\n\nUSER TOPIC: " ++ topic ++ "\n\nRespond in JSON."

/-- The `/explain` handler, generic in the file's system prompt.  The
upstream completion capability is an oracle from the sent prompt to its
outcome; `upstreamCalls` counts its invocations. -/
def explainWith (systemPrompt : String) (apiKey : Option String) (topic : String)
    (upstream : String → Upstream) : ExplainOutcome :=
  if keyTruthy apiKey then
    match upstream (fullPromptWith systemPrompt topic) with
    | Upstream.ok raw => ⟨ExplainResult.ok (postProcess raw), 1⟩
    | Upstream.fail e => ⟨ExplainResult.httpError 500 e, 1⟩
  else ⟨ExplainResult.httpError 500 "API Key not configured.", 0⟩

namespace Main

/-- `SYSTEM_PROMPT` of src/main.py, transcribed character-exactly (the
triple-quoted literal opens and closes with a newline). -/
def SYSTEM_PROMPT : String :=
  "\nYou are a concise Human Relevance Explanation Engine.\nThe user is a general public member.\n\nSTRICT SAFETY GUARDRAILS:\n1. If the user asks for instructions on how to harm themselves or others, build weapons, or commit crimes, REFUSE with: \"I cannot provide information on this topic due to safety guidelines.\"\n2. If the user describes specific symptoms and asks for a diagnosis, REFUSE with: \"I cannot provide medical diagnoses. Please consult a professional.\"\n\nIf the topic is safe, provide a structured answer:\n\n1. What it is: A brief factual explanation (1-2 sentences).\n2. Human connection: How it relates to biology, emotions, or psychology.\n3. Social/behavioral influence: Impact on behavior or society.\n4. Relevant studies: Mention \"General Scientific Consensus\" if no specific famous paper exists. If citing, use (Author, Year).\n5. Confidence level: rate as \"High\", \"Moderate\", or \"Preliminary\".\n6. Confidence reason: A very short justification (e.g. \"Decades of study\" or \"New emerging field\").\n\nYour output must be raw JSON with keys: what_it_is, human_connection, social_influence, relevant_studies, confidence_level, confidence_reason.\nDo not use Markdown formatting in the JSON.\n"

/-- The composed prompt of src/main.py's handler. -/
def fullPrompt (topic : String) : String :=
  fullPromptWith SYSTEM_PROMPT topic

/-- The `/explain` handler of src/main.py. -/
def explain_topic (apiKey : Option String) (topic : String)
    (upstream : String → Upstream) : ExplainOutcome :=
  explainWith SYSTEM_PROMPT apiKey topic upstream

end Main

namespace ApiIndex

/-- `SYSTEM_PROMPT` of src/api/index.py, transcribed character-exactly; it
differs from src/main.py's copy in item 6 (no parenthesised examples). -/
def SYSTEM_PROMPT : String :=
  "\nYou are a concise Human Relevance Explanation Engine.\nThe user is a general public member.\n\nSTRICT SAFETY GUARDRAILS:\n1. If the user asks for instructions on how to harm themselves or others, build weapons, or commit crimes, REFUSE with: \"I cannot provide information on this topic due to safety guidelines.\"\n2. If the user describes specific symptoms and asks for a diagnosis, REFUSE with: \"I cannot provide medical diagnoses. Please consult a professional.\"\n\nIf the topic is safe, provide a structured answer:\n\n1. What it is: A brief factual explanation (1-2 sentences).\n2. Human connection: How it relates to biology, emotions, or psychology.\n3. Social/behavioral influence: Impact on behavior or society.\n4. Relevant studies: Mention \"General Scientific Consensus\" if no specific famous paper exists. If citing, use (Author, Year).\n5. Confidence level: rate as \"High\", \"Moderate\", or \"Preliminary\".\n6. Confidence reason: A very short justification.\n\nYour output must be raw JSON with keys: what_it_is, human_connection, social_influence, relevant_studies, confidence_level, confidence_reason.\nDo not use Markdown formatting in the JSON.\n"

/-- The composed prompt of src/api/index.py's handler. -/
def fullPrompt (topic : String) : String :=
  fullPromptWith SYSTEM_PROMPT topic

/-- The `/explain` handler of src/api/index.py. -/
def explain_topic (apiKey : Option String) (topic : String)
    (upstream : String → Upstream) : ExplainOutcome :=
  explainWith SYSTEM_PROMPT apiKey topic upstream

end ApiIndex

/-- The fixed system instruction block as quoted in the specification
(§4.1), modelled from the spec's words for comparison with the source's
`SYSTEM_PROMPT` (apostrophes written as \x27 escapes). -/
def specSystemInstruction : String :=
  "You are a concise Human Relevance Explanation Engine. The user is a general public member. STRICT SAFETY GUARDRAILS: 1. If the user asks for instructions on how to harm themselves or others, build weapons, or commit crimes, REFUSE with: \x27I cannot provide information on this topic due to safety guidelines.\x27 2. If the user describes specific symptoms and asks for a diagnosis, REFUSE with: \x27I cannot provide medical diagnoses. Please consult a professional.\x27 If the topic is safe, provide a structured answer: 1. What it is: a brief factual explanation (1-2 sentences). 2. Human connection: how it relates to biology, emotions, or psychology. 3. Social/behavioral influence: impact on behavior or society. 4. Relevant studies: mention \x27General Scientific Consensus\x27 if no specific famous paper exists; otherwise cite as (Author, Year). 5. Confidence level: High, Moderate, or Preliminary. 6. Confidence reason: a very short justification. Output must be raw JSON with keys: what_it_is, human_connection, social_influence, relevant_studies, confidence_level, confidence_reason. Do not use Markdown formatting in the JSON."

/-- The six keys the spec's `ExplanationResult` contract requires. -/
def sixKeys : List String :=
  ["what_it_is", "human_connection", "social_influence", "relevant_studies",
   "confidence_level", "confidence_reason"]

/-- Whether a JSON value is an object carrying all six contract keys. -/
def hasSixKeys (j : Json) : Bool :=
  match j with
  | Json.obj kvs => sixKeys.all (fun k => kvs.any (fun kv => kv.1 = k))
  | _ => false

/-- Whether a JSON value is an object at all. -/
def isObj (j : Json) : Bool :=
  match j with
  | Json.obj _ => true
  | _ => false

/-- Characters on which the decoder's value dispatch can succeed. -/
def isValueStart (c : Char) : Prop :=
  c = '"' ∨ c = '\x7b' ∨ c = '[' ∨ c = 't' ∨ c = 'f' ∨ c = 'n' ∨
  c = 'N' ∨ c = 'I' ∨ c = '-' ∨ c.isDigit = true

/-- Suffixes that cannot extend a just-completed JSON token: empty, or
starting with JSON whitespace or a structural delimiter. -/
def stopOk (r : List Char) : Prop :=
  r = [] ∨ ∃ d r', r = d :: r' ∧ (jWs d = true ∨ d = ',' ∨ d = ']' ∨ d = '\x7d')

/-! ## General facts about the handler -/

theorem explainWith_noKey {k : Option String} (sp t : String) (u : String → Upstream)
    (h : keyTruthy k = false) :
    explainWith sp k t u = ⟨ExplainResult.httpError 500 "API Key not configured.", 0⟩ := by
  simp [explainWith, h]

theorem explainWith_fail {k : Option String} {t e : String} {u : String → Upstream}
    (sp : String) (hk : keyTruthy k = true)
    (hu : u (fullPromptWith sp t) = Upstream.fail e) :
    explainWith sp k t u = ⟨ExplainResult.httpError 500 e, 1⟩ := by
  simp [explainWith, hk, hu]

theorem explainWith_ok {k : Option String} {t raw : String} {u : String → Upstream}
    (sp : String) (hk : keyTruthy k = true)
    (hu : u (fullPromptWith sp t) = Upstream.ok raw) :
    explainWith sp k t u = ⟨ExplainResult.ok (postProcess raw), 1⟩ := by
  simp [explainWith, hk, hu]

/-! ## Facts about the cleanup -/

theorem isPrefixOf_iffPre {p l : List Char} : p.isPrefixOf l = true ↔ p <+: l :=
  List.isPrefixOf_iff_prefix

theorem rdropWhile_isPre (p : Char → Bool) (l : List Char) : List.rdropWhile p l <+: l :=
  List.rdropWhile_prefix p l

theorem replaceOut_nil (pat : List Char) (hp : pat ≠ []) (f : Nat) :
    replaceOut pat f [] = [] := by
  cases f with
  | zero => rfl
  | succ n =>
    cases pat with
    | nil => exact absurd rfl hp
    | cons p ps => rfl

theorem replaceOut_cons_neg {pat : List Char} {c : Char} {l : List Char}
    (h : ¬ pat <+: (c :: l)) (f : Nat) :
    replaceOut pat (f + 1) (c :: l) = c :: replaceOut pat f l := by
  have hb : ¬ (pat.isPrefixOf (c :: l) = true) := fun hT => h (isPrefixOf_iffPre.mp hT)
  simp [replaceOut, hb]

theorem replaceOut_pos {pat l : List Char} (h : pat <+: l) (f : Nat) :
    replaceOut pat (f + 1) l = replaceOut pat f (l.drop pat.length) := by
  have hb : pat.isPrefixOf l = true := isPrefixOf_iffPre.mpr h
  simp [replaceOut, hb]

theorem replaceOut_congr {pat : List Char} (hp : pat ≠ []) :
    ∀ f1 f2 l, l.length ≤ f1 → l.length ≤ f2 →
      replaceOut pat f1 l = replaceOut pat f2 l := by
  have hplen : 0 < pat.length := List.length_pos.mpr hp
  intro f1
  induction f1 with
  | zero =>
    intro f2 l h1 _
    have hl : l = [] := List.length_eq_zero.mp (Nat.le_zero.mp h1)
    subst hl
    rw [replaceOut_nil pat hp, replaceOut_nil pat hp]
  | succ n IH =>
    intro f2 l h1 h2
    cases l with
    | nil => rw [replaceOut_nil pat hp, replaceOut_nil pat hp]
    | cons c rest =>
      cases f2 with
      | zero => simp at h2
      | succ m =>
        by_cases hpre : pat <+: (c :: rest)
        · rw [replaceOut_pos hpre, replaceOut_pos hpre]
          simp only [List.length_cons] at h1 h2
          apply IH <;> (simp only [List.length_drop, List.length_cons]; omega)
        · rw [replaceOut_cons_neg hpre, replaceOut_cons_neg hpre]
          exact congrArg (c :: ·) (IH m rest (by simpa using h1) (by simpa using h2))

theorem stripJsonFence_fuel {l : List Char} {f : Nat} (h : l.length ≤ f) :
    replaceOut fence7 f l = stripJsonFence l :=
  replaceOut_congr (by decide) f l.length l h (Nat.le_refl _)

theorem stripTicks_fuel {l : List Char} {f : Nat} (h : l.length ≤ f) :
    replaceOut ticks3 f l = stripTicks l :=
  replaceOut_congr (by decide) f l.length l h (Nat.le_refl _)

theorem stripJsonFence_cons_neg {c : Char} {l : List Char} (h : ¬ fence7 <+: (c :: l)) :
    stripJsonFence (c :: l) = c :: stripJsonFence l :=
  replaceOut_cons_neg h l.length

theorem stripTicks_cons_neg {c : Char} {l : List Char} (h : ¬ ticks3 <+: (c :: l)) :
    stripTicks (c :: l) = c :: stripTicks l :=
  replaceOut_cons_neg h l.length

theorem stripJsonFence_drop_fence (l : List Char) :
    stripJsonFence (fence7 ++ l) = stripJsonFence l := by
  show replaceOut fence7 (fence7 ++ l).length (fence7 ++ l) = stripJsonFence l
  have hlen : (fence7 ++ l).length = (l.length + 6) + 1 := by
    simp [fence7]
  rw [hlen, replaceOut_pos (List.prefix_append fence7 l)]
  rw [show (fence7 ++ l).drop fence7.length = l from List.drop_left fence7 l]
  exact stripJsonFence_fuel (by omega)

theorem stripTicks_drop_ticks (l : List Char) :
    stripTicks (ticks3 ++ l) = stripTicks l := by
  show replaceOut ticks3 (ticks3 ++ l).length (ticks3 ++ l) = stripTicks l
  have hlen : (ticks3 ++ l).length = (l.length + 2) + 1 := by
    simp [ticks3]
  rw [hlen, replaceOut_pos (List.prefix_append ticks3 l)]
  rw [show (ticks3 ++ l).drop ticks3.length = l from List.drop_left ticks3 l]
  exact stripTicks_fuel (by omega)

theorem not_fence_pre_append_ticks {l : List Char} (h : ¬ fence7 <+: l) :
    ¬ fence7 <+: (l ++ ticks3) := by
  intro hf
  by_cases hlen : 7 ≤ l.length
  · exact h (List.prefix_of_prefix_length_le hf (List.prefix_append l ticks3)
      (by simpa [fence7] using hlen))
  · push_neg at hlen
    have hge : 4 ≤ l.length := by
      have hle := hf.length_le
      simp only [List.length_append] at hle
      simp [fence7, ticks3] at hle
      omega
    have hidx : (l ++ ticks3)[6]? = some 'n' := by
      obtain ⟨t, ht⟩ := hf
      rw [← ht]
      rw [List.getElem?_append]
      simp [fence7]
    have hidx2 : (l ++ ticks3)[6]? = some '\x60' := by
      rw [List.getElem?_append_right (by omega)]
      rcases (show 6 - l.length = 0 ∨ 6 - l.length = 1 ∨ 6 - l.length = 2 by omega)
        with hd | hd | hd <;> rw [hd] <;> rfl
    rw [hidx] at hidx2
    exact absurd (Option.some.inj hidx2) (by decide)

theorem stripJsonFence_ticks_aux :
    ∀ (n : Nat) (l : List Char), l.length ≤ n →
      stripJsonFence (l ++ ticks3) = stripJsonFence l ++ ticks3 := by
  intro n
  induction n with
  | zero =>
    intro l h
    have hl : l = [] := List.length_eq_zero.mp (Nat.le_zero.mp h)
    subst hl
    rfl
  | succ n IH =>
    intro l h
    by_cases hpre : fence7 <+: l
    · obtain ⟨rest, hrest⟩ := hpre
      subst hrest
      rw [List.append_assoc, stripJsonFence_drop_fence, stripJsonFence_drop_fence]
      refine IH rest ?_
      simp only [List.length_append] at h
      simp [fence7] at h
      omega
    · cases l with
      | nil => rfl
      | cons c rest =>
        have h2 : ¬ fence7 <+: ((c :: rest) ++ ticks3) := not_fence_pre_append_ticks hpre
        rw [List.cons_append, stripJsonFence_cons_neg (by simpa using h2),
          stripJsonFence_cons_neg hpre, List.cons_append]
        exact congrArg (c :: ·) (IH rest (by simpa using h))

theorem stripJsonFence_ticks (l : List Char) :
    stripJsonFence (l ++ ticks3) = stripJsonFence l ++ ticks3 :=
  stripJsonFence_ticks_aux l.length l (Nat.le_refl _)

theorem stripTicks_ticks_aux :
    ∀ (n : Nat) (l : List Char), l.length ≤ n →
      stripTicks (l ++ ticks3) = stripTicks l := by
  intro n
  induction n with
  | zero =>
    intro l h
    have hl : l = [] := List.length_eq_zero.mp (Nat.le_zero.mp h)
    subst hl
    rfl
  | succ n IH =>
    intro l h
    by_cases hpre : ticks3 <+: l
    · obtain ⟨rest, hrest⟩ := hpre
      subst hrest
      rw [List.append_assoc, stripTicks_drop_ticks, stripTicks_drop_ticks]
      refine IH rest ?_
      simp only [List.length_append] at h
      simp [ticks3] at h
      omega
    · by_cases hpre2 : ticks3 <+: (l ++ ticks3)
      · have hlen : l.length < 3 := by
          by_contra hge
          push_neg at hge
          exact hpre (List.prefix_of_prefix_length_le hpre2 (List.prefix_append l ticks3)
            (by simpa [ticks3] using hge))
        rcases l with _ | ⟨c1, _ | ⟨c2, _ | ⟨c3, rest⟩⟩⟩
        · rfl
        · obtain ⟨t, ht⟩ := hpre2
          simp only [ticks3, List.cons_append, List.nil_append, List.cons.injEq] at ht
          obtain ⟨hc1, -⟩ := ht
          subst hc1
          rfl
        · obtain ⟨t, ht⟩ := hpre2
          simp only [ticks3, List.cons_append, List.nil_append, List.cons.injEq] at ht
          obtain ⟨hc1, hc2, -⟩ := ht
          subst hc1
          subst hc2
          rfl
        · simp only [List.length_cons] at hlen
          omega
      · cases l with
        | nil => exact absurd (show ticks3 <+: [] ++ ticks3 by simp) hpre2
        | cons c rest =>
          rw [List.cons_append, stripTicks_cons_neg (by simpa using hpre2),
            stripTicks_cons_neg hpre]
          exact congrArg (c :: ·) (IH rest (by simpa using h))

theorem stripTicks_ticks (l : List Char) :
    stripTicks (l ++ ticks3) = stripTicks l :=
  stripTicks_ticks_aux l.length l (Nat.le_refl _)

theorem hasOcc_false_elim {pat : List Char} {c : Char} {l : List Char}
    (h : hasOcc pat (c :: l) = false) :
    ¬ pat <+: (c :: l) ∧ hasOcc pat l = false := by
  rw [hasOcc, Bool.or_eq_false_iff] at h
  exact ⟨fun hp => by simp [isPrefixOf_iffPre.mpr hp] at h, h.2⟩

theorem hasOcc_false_pat_ne_nil {pat l : List Char} (h : hasOcc pat l = false) :
    pat ≠ [] := by
  intro hp
  subst hp
  cases l with
  | nil => simp [hasOcc, List.isPrefixOf] at h
  | cons c r => simp [hasOcc, List.isPrefixOf] at h

theorem replaceOut_id_of_no_occ {pat : List Char} :
    ∀ (l : List Char) (f : Nat), hasOcc pat l = false → replaceOut pat f l = l := by
  intro l
  induction l with
  | nil => intro f h; exact replaceOut_nil pat (hasOcc_false_pat_ne_nil h) f
  | cons c rest IH =>
    intro f h
    obtain ⟨hnp, hrest⟩ := hasOcc_false_elim h
    cases f with
    | zero => rfl
    | succ n => rw [replaceOut_cons_neg hnp, IH n hrest]

theorem stripJsonFence_id_of_no_occ {l : List Char} (h : hasOcc fence7 l = false) :
    stripJsonFence l = l :=
  replaceOut_id_of_no_occ l l.length h

theorem stripTicks_id_of_no_occ {l : List Char} (h : hasOcc ticks3 l = false) :
    stripTicks l = l :=
  replaceOut_id_of_no_occ l l.length h

theorem stripTicks_head_tick {l x : List Char} (h : stripTicks l = '\x60' :: x) :
    ∃ l', l = '\x60' :: l' := by
  by_cases hpre : ticks3 <+: l
  · obtain ⟨rest, hrest⟩ := hpre
    exact ⟨'\x60' :: '\x60' :: rest, by rw [← hrest]; rfl⟩
  · cases l with
    | nil => simp [stripTicks, replaceOut] at h
    | cons c rest =>
      rw [stripTicks_cons_neg hpre] at h
      injection h with h1 _
      exact ⟨rest, by rw [h1]⟩

theorem stripTicks_head_two_ticks {l x : List Char}
    (h : stripTicks l = '\x60' :: '\x60' :: x) :
    ∃ l', l = '\x60' :: '\x60' :: l' := by
  by_cases hpre : ticks3 <+: l
  · obtain ⟨rest, hrest⟩ := hpre
    exact ⟨'\x60' :: rest, by rw [← hrest]; rfl⟩
  · cases l with
    | nil => simp [stripTicks, replaceOut] at h
    | cons c rest =>
      rw [stripTicks_cons_neg hpre] at h
      injection h with h1 h2
      subst h1
      obtain ⟨l', hl'⟩ := stripTicks_head_tick h2
      exact ⟨l', by rw [hl']⟩

theorem stripTicks_no_occ_aux :
    ∀ (n : Nat) (l : List Char), l.length ≤ n →
      hasOcc ticks3 (stripTicks l) = false := by
  intro n
  induction n with
  | zero =>
    intro l h
    have hl : l = [] := List.length_eq_zero.mp (Nat.le_zero.mp h)
    subst hl
    rfl
  | succ n IH =>
    intro l h
    by_cases hpre : ticks3 <+: l
    · obtain ⟨rest, hrest⟩ := hpre
      subst hrest
      rw [stripTicks_drop_ticks]
      refine IH rest ?_
      simp only [List.length_append] at h
      simp [ticks3] at h
      omega
    · cases l with
      | nil => rfl
      | cons c rest =>
        rw [stripTicks_cons_neg hpre]
        have hrest : hasOcc ticks3 (stripTicks rest) = false := IH rest (by simpa using h)
        rw [hasOcc, Bool.or_eq_false_iff]
        refine ⟨?_, hrest⟩
        by_contra hb
        rw [Bool.not_eq_false] at hb
        obtain ⟨t, ht⟩ := isPrefixOf_iffPre.mp hb
        simp only [ticks3, List.cons_append, List.nil_append, List.cons.injEq] at ht
        obtain ⟨hc, hx⟩ := ht
        subst hc
        obtain ⟨l', hl'⟩ := stripTicks_head_two_ticks hx.symm
        exact hpre ⟨l', by rw [hl']; rfl⟩

theorem stripTicks_no_occ (l : List Char) : hasOcc ticks3 (stripTicks l) = false :=
  stripTicks_no_occ_aux l.length l (Nat.le_refl _)

theorem hasOcc_false_of_append_left {pat pre l₂ : List Char}
    (h : hasOcc pat (pre ++ l₂) = false) : hasOcc pat l₂ = false := by
  induction pre with
  | nil => simpa using h
  | cons c cs IH => exact IH (hasOcc_false_elim h).2

theorem hasOcc_false_of_pre {pat l₁ l : List Char} (hp : l₁ <+: l)
    (h : hasOcc pat l = false) : hasOcc pat l₁ = false := by
  obtain ⟨t, ht⟩ := hp
  subst ht
  induction l₁ with
  | nil =>
    cases pat with
    | nil =>
      exfalso
      cases t <;> simp [hasOcc, List.isPrefixOf] at h
    | cons p ps => simp [hasOcc, List.isPrefixOf]
  | cons c cs IH =>
    obtain ⟨hnp, hrest⟩ := hasOcc_false_elim (show hasOcc pat (c :: (cs ++ t)) = false
      from by simpa using h)
    rw [hasOcc, Bool.or_eq_false_iff]
    constructor
    · by_contra hb
      rw [Bool.not_eq_false] at hb
      exact hnp ((isPrefixOf_iffPre.mp hb).trans (by exact ⟨t, by simp⟩))
    · exact IH hrest

theorem hasOcc_false_pyStripL {pat l : List Char} (h : hasOcc pat l = false) :
    hasOcc pat (pyStripL l) = false := by
  have h1 : hasOcc pat (l.dropWhile pyWs) = false := by
    obtain ⟨pre, hpre⟩ := List.dropWhile_suffix (p := pyWs) (l := l)
    rw [← hpre] at h
    exact hasOcc_false_of_append_left h
  exact hasOcc_false_of_pre (rdropWhile_isPre pyWs _) h1

theorem hasOcc_fence_false_of_ticks {l : List Char} (h : hasOcc ticks3 l = false) :
    hasOcc fence7 l = false := by
  induction l with
  | nil => simp [hasOcc, fence7, List.isPrefixOf]
  | cons c rest IH =>
    obtain ⟨hnp, hrest⟩ := hasOcc_false_elim h
    rw [hasOcc, Bool.or_eq_false_iff]
    refine ⟨?_, IH hrest⟩
    by_contra hb
    rw [Bool.not_eq_false] at hb
    have hf : fence7 <+: (c :: rest) := isPrefixOf_iffPre.mp hb
    have ht : ticks3 <+: fence7 := ⟨['j', 's', 'o', 'n'], rfl⟩
    exact hnp (ht.trans hf)

theorem pyStripL_idem (l : List Char) : pyStripL (pyStripL l) = pyStripL l := by
  unfold pyStripL
  have hAid : (l.dropWhile pyWs).dropWhile pyWs = l.dropWhile pyWs :=
    List.dropWhile_idempotent pyWs l
  have hBd : (List.rdropWhile pyWs (l.dropWhile pyWs)).dropWhile pyWs
      = List.rdropWhile pyWs (l.dropWhile pyWs) := by
    rcases hBemp : List.rdropWhile pyWs (l.dropWhile pyWs) with _ | ⟨b, B'⟩
    · rfl
    · have hpre : List.rdropWhile pyWs (l.dropWhile pyWs) <+: l.dropWhile pyWs :=
        rdropWhile_isPre pyWs _
      rw [hBemp] at hpre
      obtain ⟨t, ht⟩ := hpre
      have hhead := List.dropWhile_eq_self_iff.mp hAid
      rw [← ht] at hhead
      have hb : ¬ pyWs b := by simpa using hhead (by simp)
      rw [List.dropWhile_cons_of_neg hb]
  rw [hBd]
  exact List.rdropWhile_idempotent pyWs (l.dropWhile pyWs)

theorem cleanL_idem (l : List Char) : cleanL (cleanL l) = cleanL l := by
  have h1 : hasOcc ticks3 (stripTicks (stripJsonFence l)) = false :=
    stripTicks_no_occ _
  have h2 : hasOcc ticks3 (pyStripL (stripTicks (stripJsonFence l))) = false :=
    hasOcc_false_pyStripL h1
  have h3 : hasOcc fence7 (pyStripL (stripTicks (stripJsonFence l))) = false :=
    hasOcc_fence_false_of_ticks h2
  show cleanL (pyStripL (stripTicks (stripJsonFence l))) = _
  unfold cleanL
  rw [stripJsonFence_id_of_no_occ h3, stripTicks_id_of_no_occ h2, pyStripL_idem]

theorem clean_idem (s : String) : clean (clean s) = clean s :=
  congrArg String.mk (cleanL_idem s.data)

theorem clean_fenced (s : String) :
    clean ("\x60\x60\x60json" ++ s ++ "\x60\x60\x60") = clean s := by
  have hdata : ("\x60\x60\x60json" ++ s ++ "\x60\x60\x60").data
      = fence7 ++ (s.data ++ ticks3) := by
    rw [String.data_append, String.data_append]
    simp [fence7, ticks3]
  show String.mk (cleanL (("\x60\x60\x60json" ++ s ++ "\x60\x60\x60").data)) = _
  rw [hdata]
  unfold cleanL
  rw [stripJsonFence_drop_fence, stripJsonFence_ticks, stripTicks_ticks]
  rfl

theorem clean_eq_self {raw : String} (hnt : hasOcc ticks3 raw.data = false)
    (hws : pyStripL raw.data = raw.data) : clean raw = raw := by
  have hnf : hasOcc fence7 raw.data = false := hasOcc_fence_false_of_ticks hnt
  show String.mk (cleanL raw.data) = raw
  unfold cleanL
  rw [stripJsonFence_id_of_no_occ hnf, stripTicks_id_of_no_occ hnt, hws]

/-! ## Character classes and boundary lemmas for strip absorption -/

theorem pyWs_of_jWs {c : Char} (h : jWs c = true) : pyWs c = true := by
  have hc : ((c = ' ' ∨ c = '\t') ∨ c = '\n') ∨ c = '\r' := by simpa [jWs] using h
  rcases hc with ((rfl | rfl) | rfl) | rfl <;> rfl

theorem jWs_false_of_pyWs_false {c : Char} (h : pyWs c = false) : jWs c = false := by
  by_contra hb
  rw [Bool.not_eq_false] at hb
  rw [pyWs_of_jWs hb] at h
  exact absurd h (by decide)

theorem pyWs_false_of_isDigit {c : Char} (h : c.isDigit = true) : pyWs c = false := by
  have hb : (48 : UInt32) ≤ c.val ∧ c.val ≤ (57 : UInt32) := by
    simpa [Char.isDigit, Bool.and_eq_true, ge_iff_le] using h
  have h1 : c ≠ ' ' := fun e => by subst e; exact absurd h (by decide)
  have h2 : c ≠ '\t' := fun e => by subst e; exact absurd h (by decide)
  have h3 : c ≠ '\n' := fun e => by subst e; exact absurd h (by decide)
  have h4 : c ≠ '\r' := fun e => by subst e; exact absurd h (by decide)
  have h5 : c ≠ '\x0b' := fun e => by subst e; exact absurd h (by decide)
  have h6 : c ≠ '\x0c' := fun e => by subst e; exact absurd h (by decide)
  have h7 : c ≠ '\x85' := fun e => by subst e; exact absurd h (by decide)
  have h8 : c ≠ '\xa0' := fun e => by subst e; exact absurd h (by decide)
  have h9 : c ≠ '\u1680' := fun e => by subst e; exact absurd h (by decide)
  have h10 : c ≠ '\u2028' := fun e => by subst e; exact absurd h (by decide)
  have h11 : c ≠ '\u2029' := fun e => by subst e; exact absurd h (by decide)
  have h12 : c ≠ '\u202f' := fun e => by subst e; exact absurd h (by decide)
  have h13 : c ≠ '\u205f' := fun e => by subst e; exact absurd h (by decide)
  have h14 : c ≠ '\u3000' := fun e => by subst e; exact absurd h (by decide)
  have hr1 : decide (c ≤ '\x1f') = false := by
    apply decide_eq_false
    intro hle
    have t1 : 48 ≤ c.val.toNat := hb.1
    have t2 : c.val.toNat ≤ 31 := hle
    omega
  have hr2 : decide ('\u2000' ≤ c) = false := by
    apply decide_eq_false
    intro hle
    have t1 : c.val.toNat ≤ 57 := hb.2
    have t2 : 8192 ≤ c.val.toNat := hle
    omega
  simp [pyWs, h1, h2, h3, h4, h5, h6, h7, h8, h9, h10, h11, h12, h13, h14, hr1, hr2]

theorem isDigit_ne {c x : Char} (h : c.isDigit = true) (hx : x.isDigit = false) : c ≠ x := by
  intro e
  subst e
  rw [h] at hx
  exact absurd hx (by decide)

theorem valueStart_pyWs_false {c : Char} (h : isValueStart c) : pyWs c = false := by
  rcases h with rfl | rfl | rfl | rfl | rfl | rfl | rfl | rfl | rfl | h <;>
    first
      | decide
      | exact pyWs_false_of_isDigit h

theorem valueStart_jWs_false {c : Char} (h : isValueStart c) : jWs c = false :=
  jWs_false_of_pyWs_false (valueStart_pyWs_false h)

theorem valueStart_ne_rbrack {c : Char} (h : isValueStart c) : c ≠ ']' := by
  rcases h with rfl | rfl | rfl | rfl | rfl | rfl | rfl | rfl | rfl | h <;>
    first
      | decide
      | exact isDigit_ne h (by decide)

theorem valueStart_ne_rbrace {c : Char} (h : isValueStart c) : c ≠ '\x7d' := by
  rcases h with rfl | rfl | rfl | rfl | rfl | rfl | rfl | rfl | rfl | h <;>
    first
      | decide
      | exact isDigit_ne h (by decide)

theorem takeWhile_append_all {p : Char → Bool} {w z : List Char}
    (hw : ∀ a ∈ w, p a = true)
    (hz : z = [] ∨ ∃ d z', z = d :: z' ∧ p d = false) :
    (w ++ z).takeWhile p = w ∧ (w ++ z).dropWhile p = z := by
  induction w with
  | nil =>
    rcases hz with rfl | ⟨d, z', rfl, hd⟩
    · exact ⟨rfl, rfl⟩
    · simp [List.takeWhile_cons, List.dropWhile_cons, hd]
  | cons a w' IH =>
    have hpa : p a = true := hw a (by simp)
    have hrest : ∀ b ∈ w', p b = true := fun b hb => hw b (by simp [hb])
    obtain ⟨ht, hd⟩ := IH hrest
    simp [List.takeWhile_cons, List.dropWhile_cons, hpa, ht, hd]

theorem skipWs_append_all {w z : List Char} (hw : ∀ a ∈ w, jWs a = true)
    (hz : z = [] ∨ ∃ d z', z = d :: z' ∧ jWs d = false) :
    skipWs (w ++ z) = z :=
  (takeWhile_append_all hw hz).2

theorem skipWs_nil_all {rest : List Char} (h : skipWs rest = []) :
    ∀ c ∈ rest, jWs c = true := by
  intro c hc
  exact List.dropWhile_eq_nil_iff.mp h c hc

theorem rdropWhile_append_all {x r : List Char} (hx : x ≠ [])
    (hlast : ∀ d, x.getLast? = some d → pyWs d = false)
    (hr : ∀ c ∈ r, pyWs c = true) :
    List.rdropWhile pyWs (x ++ r) = x := by
  unfold List.rdropWhile
  rw [List.reverse_append]
  rcases hrev : x.reverse with _ | ⟨d, t⟩
  · exact absurd (List.reverse_eq_nil_iff.mp hrev) hx
  · have hd : pyWs d = false := by
      apply hlast
      rw [← List.head?_reverse, hrev]
      rfl
    have hall : ∀ a ∈ r.reverse, pyWs a = true := fun a ha => hr a (List.mem_reverse.mp ha)
    have hdw := (takeWhile_append_all hall (Or.inr ⟨d, t, hrev, hd⟩)).2
    rw [hrev] at hdw
    rw [hdw, ← hrev, List.reverse_reverse]

/-! ## The decoder consumes a prefix ending at a token boundary -/

theorem getLast?_cons_of_ne {a : Char} {l : List Char} (h : l ≠ []) :
    (a :: l).getLast? = l.getLast? := by
  rcases l with _ | ⟨b, t⟩
  · exact absurd rfl h
  · exact List.getLast?_cons_cons

theorem hex4_consumed {cs : List Char} {code : Nat} {rest : List Char}
    (h : hex4 cs = some (code, rest)) :
    ∃ q, cs = q ++ rest ∧ q.length = 4 ∧ ∀ z, hex4 (q ++ z) = some (code, z) := by
  rcases cs with _ | ⟨a1, _ | ⟨a2, _ | ⟨a3, _ | ⟨a4, rest'⟩⟩⟩⟩
  · simp [hex4] at h
  · simp [hex4] at h
  · simp [hex4] at h
  · simp [hex4] at h
  · rcases hv1 : hexVal a1 with _ | n1 <;> rcases hv2 : hexVal a2 with _ | n2 <;>
      rcases hv3 : hexVal a3 with _ | n3 <;> rcases hv4 : hexVal a4 with _ | n4 <;>
      simp [hex4, hv1, hv2, hv3, hv4] at h
    obtain ⟨hcode, hrest⟩ := h
    subst hcode
    subst hrest
    exact ⟨[a1, a2, a3, a4], rfl, rfl, fun z => by simp [hex4, hv1, hv2, hv3, hv4]⟩

theorem surrPair_consumed {code : Nat} {cs : List Char} {cc : Char} {rest4 : List Char}
    (h : surrPair code cs = some (cc, rest4)) :
    ∃ q, cs = q ++ rest4 ∧ q.length = 6 ∧ ∀ z, surrPair code (q ++ z) = some (cc, z) := by
  unfold surrPair at h
  by_cases hc : 0xD800 ≤ code ∧ code ≤ 0xDBFF
  · rw [if_pos hc] at h
    rcases cs with _ | ⟨e1, _ | ⟨e2, rest3⟩⟩
    · simp at h
    · simp at h
    · dsimp only [] at h
      by_cases hab : e1 = '\\' ∧ e2 = 'u'
      · rw [if_pos hab] at h
        obtain ⟨rfl, rfl⟩ := hab
        rcases hh : hex4 rest3 with _ | ⟨lo, rest5⟩
        · rw [hh] at h; simp at h
        · rw [hh] at h
          dsimp only [] at h
          by_cases hlow : 0xDC00 ≤ lo ∧ lo ≤ 0xDFFF
          · rw [if_pos hlow] at h
            obtain ⟨hcc, hr⟩ :
                Char.ofNat (0x10000 + (code - 0xD800) * 0x400 + (lo - 0xDC00)) = cc ∧
                  rest5 = rest4 := by simpa using h
            subst hr
            obtain ⟨q3, hq3eq, hq3len, hq3ext⟩ := hex4_consumed hh
            subst hq3eq
            refine ⟨'\\' :: 'u' :: q3, by simp, by simp [hq3len], ?_⟩
            intro z
            simp [surrPair, hc, hlow, hq3ext, hcc]
          · rw [if_neg hlow] at h; simp at h
      · rw [if_neg hab] at h; simp at h
  · rw [if_neg hc] at h; simp at h

theorem surrPair_stable {code : Nat} {x z w : List Char}
    (hne : x ≠ []) (hlast : x.getLast? = some '"')
    (hlook : ∀ t, x = '\\' :: 'u' :: t → 4 ≤ t.length)
    (h : surrPair code (x ++ z) = none) : surrPair code (x ++ w) = none := by
  unfold surrPair at h ⊢
  by_cases hc : 0xD800 ≤ code ∧ code ≤ 0xDBFF
  · rw [if_pos hc] at h ⊢
    rcases x with _ | ⟨a, _ | ⟨b, t⟩⟩
    · exact absurd rfl hne
    · have ha : a = '"' := by simpa using hlast
      subst ha
      rcases w with _ | ⟨b2, w'⟩
      · rfl
      · simp only [List.cons_append, List.nil_append]
        rw [if_neg (fun hx => absurd hx.1 (by decide))]
    · simp only [List.cons_append] at h ⊢
      by_cases hab : a = '\\' ∧ b = 'u'
      · rw [if_pos hab] at h ⊢
        obtain ⟨rfl, rfl⟩ := hab
        have ht : 4 ≤ t.length := hlook t rfl
        rcases t with _ | ⟨g1, _ | ⟨g2, _ | ⟨g3, _ | ⟨g4, t'⟩⟩⟩⟩
        · simp at ht
        · simp at ht
        · simp at ht
        · simp at ht
        · simp only [List.cons_append] at h ⊢
          rcases hv1 : hexVal g1 with _ | n1 <;>
            rcases hv2 : hexVal g2 with _ | n2 <;>
            rcases hv3 : hexVal g3 with _ | n3 <;>
            rcases hv4 : hexVal g4 with _ | n4 <;>
            simp only [hex4, hv1, hv2, hv3, hv4] at h ⊢ <;>
            first
              | rfl
              | (by_cases hlow : 0xDC00 ≤ ((n1 * 16 + n2) * 16 + n3) * 16 + n4 ∧
                    ((n1 * 16 + n2) * 16 + n3) * 16 + n4 ≤ 0xDFFF
                 · rw [if_pos hlow] at h
                   exact absurd h (by simp)
                 · rw [if_neg hlow])
      · rw [if_neg hab] at h ⊢
  · rw [if_neg hc]

theorem parseStrAux_consumed :
    ∀ (f : Nat) (cs content rest : List Char),
      parseStrAux f cs = some (content, rest) →
      ∃ x, cs = x ++ rest ∧ x ≠ [] ∧ x.getLast? = some '"' ∧
        (∀ t, x = '\\' :: 'u' :: t → 4 ≤ t.length) ∧
        ∀ (r' : List Char) (g : Nat), (x ++ r').length < g →
          parseStrAux g (x ++ r') = some (content, r') := by
  intro f
  induction f with
  | zero => intro cs content rest h; simp [parseStrAux] at h
  | succ n IH =>
    intro cs content rest h
    rcases cs with _ | ⟨c, rest0⟩
    · simp [parseStrAux] at h
    · simp only [parseStrAux] at h
      by_cases hq : c = '"'
      · rw [if_pos hq] at h
        subst hq
        obtain ⟨hcontent, hrest⟩ : [] = content ∧ rest0 = rest := by simpa using h
        subst hcontent
        subst hrest
        refine ⟨['"'], rfl, by simp, rfl, ?_, ?_⟩
        · intro t ht
          injection ht with h1 h2
          exact absurd h1 (by decide)
        · intro r' g hg
          rcases g with _ | g1
          · exact absurd hg (by omega)
          · simp [parseStrAux]
      · rw [if_neg hq] at h
        by_cases hb : c = '\\'
        · rw [if_pos hb] at h
          subst hb
          rcases rest0 with _ | ⟨e, rest1⟩
          · simp at h
          · dsimp only [] at h
            by_cases hu : e = 'u'
            · rw [if_pos hu] at h
              subst hu
              rcases hh4 : hex4 rest1 with _ | ⟨code, rest2⟩
              · rw [hh4] at h; simp at h
              · rw [hh4] at h
                dsimp only [] at h
                rcases hsp : surrPair code rest2 with _ | ⟨cc, rest4⟩
                · rw [hsp] at h
                  dsimp only [] at h
                  obtain ⟨⟨content2, rest5⟩, hrec, hmap⟩ := Option.map_eq_some'.mp h
                  simp only [Prod.mk.injEq] at hmap
                  obtain ⟨hc2, hr5⟩ := hmap
                  subst hr5
                  subst hc2
                  obtain ⟨x2, hx2eq, hx2ne, hx2last, hx2look, hx2ext⟩ := IH _ _ _ hrec
                  obtain ⟨q1, hq1, hq1len, hq1ext⟩ := hex4_consumed hh4
                  subst hx2eq
                  subst hq1
                  refine ⟨'\\' :: 'u' :: (q1 ++ x2), by simp, by simp, ?_, ?_, ?_⟩
                  · rw [getLast?_cons_of_ne (by simp [hx2ne]),
                      getLast?_cons_of_ne (by simp [hx2ne]),
                      List.getLast?_append_of_ne_nil _ hx2ne]
                    exact hx2last
                  · intro t ht
                    injection ht with h1 h2
                    injection h2 with h3 h4
                    subst h4
                    simp only [List.length_append, hq1len]
                    omega
                  · intro r' g hg
                    rcases g with _ | g1
                    · exact absurd hg (by omega)
                    · have hlen : (x2 ++ r').length < g1 := by
                        simp only [List.length_append, List.length_cons] at hg ⊢
                        omega
                      have hx2r := hx2ext r' g1 hlen
                      have hspr : surrPair code (x2 ++ r') = none :=
                        surrPair_stable hx2ne hx2last hx2look hsp
                      simp only [List.cons_append, List.append_assoc]
                      simp [parseStrAux, hq1ext, hspr, hx2r]
                · rw [hsp] at h
                  dsimp only [] at h
                  obtain ⟨⟨content2, rest5⟩, hrec, hmap⟩ := Option.map_eq_some'.mp h
                  simp only [Prod.mk.injEq] at hmap
                  obtain ⟨hc2, hr5⟩ := hmap
                  subst hr5
                  subst hc2
                  obtain ⟨x2, hx2eq, hx2ne, hx2last, -, hx2ext⟩ := IH _ _ _ hrec
                  obtain ⟨q2, hq2, hq2len, hq2ext⟩ := surrPair_consumed hsp
                  obtain ⟨q1, hq1, hq1len, hq1ext⟩ := hex4_consumed hh4
                  subst hx2eq
                  subst hq2
                  subst hq1
                  refine ⟨'\\' :: 'u' :: (q1 ++ (q2 ++ x2)), by simp, by simp, ?_, ?_, ?_⟩
                  · rw [getLast?_cons_of_ne (by simp [hx2ne]),
                      getLast?_cons_of_ne (by simp [hx2ne]),
                      List.getLast?_append_of_ne_nil _ (by simp [hx2ne]),
                      List.getLast?_append_of_ne_nil _ hx2ne]
                    exact hx2last
                  · intro t ht
                    injection ht with h1 h2
                    injection h2 with h3 h4
                    subst h4
                    simp only [List.length_append, hq1len]
                    omega
                  · intro r' g hg
                    rcases g with _ | g1
                    · exact absurd hg (by omega)
                    · have hlen : (x2 ++ r').length < g1 := by
                        simp only [List.length_append, List.length_cons] at hg ⊢
                        omega
                      have hx2r := hx2ext r' g1 hlen
                      simp only [List.cons_append, List.append_assoc]
                      simp [parseStrAux, hq1ext, hq2ext, hx2r]
            · rw [if_neg hu] at h
              rcases hesc : escChar e with _ | ec
              · rw [hesc] at h; simp at h
              · rw [hesc] at h
                dsimp only [] at h
                obtain ⟨⟨content2, rest5⟩, hrec, hmap⟩ := Option.map_eq_some'.mp h
                simp only [Prod.mk.injEq] at hmap
                obtain ⟨hc2, hr5⟩ := hmap
                subst hr5
                subst hc2
                obtain ⟨x2, hx2eq, hx2ne, hx2last, -, hx2ext⟩ := IH _ _ _ hrec
                subst hx2eq
                refine ⟨'\\' :: e :: x2, rfl, by simp, ?_, ?_, ?_⟩
                · rw [getLast?_cons_of_ne (by simp [hx2ne]),
                    getLast?_cons_of_ne hx2ne]
                  exact hx2last
                · intro t ht
                  injection ht with h1 h2
                  injection h2 with h3 h4
                  exact absurd h3 hu
                · intro r' g hg
                  rcases g with _ | g1
                  · exact absurd hg (by omega)
                  · have hlen : (x2 ++ r').length < g1 := by
                      simp only [List.length_append, List.length_cons] at hg ⊢
                      omega
                    have hx2r := hx2ext r' g1 hlen
                    simp [parseStrAux, hu, hesc, hx2r]
        · rw [if_neg hb] at h
          by_cases hctl : c.toNat < 32
          · rw [if_pos hctl] at h; simp at h
          · rw [if_neg hctl] at h
            obtain ⟨⟨content2, rest5⟩, hrec, hmap⟩ := Option.map_eq_some'.mp h
            simp only [Prod.mk.injEq] at hmap
            obtain ⟨hc2, hr5⟩ := hmap
            subst hr5
            subst hc2
            obtain ⟨x2, hx2eq, hx2ne, hx2last, -, hx2ext⟩ := IH _ _ _ hrec
            subst hx2eq
            refine ⟨c :: x2, rfl, by simp, ?_, ?_, ?_⟩
            · rw [getLast?_cons_of_ne hx2ne]
              exact hx2last
            · intro t ht
              injection ht with h1 h2
              exact absurd h1 hb
            · intro r' g hg
              rcases g with _ | g1
              · exact absurd hg (by omega)
              · have hlen : (x2 ++ r').length < g1 := by
                  simp only [List.length_append, List.length_cons] at hg ⊢
                  omega
                have hx2r := hx2ext r' g1 hlen
                simp [parseStrAux, hq, hb, hctl, hx2r]

theorem getLast?_mem' {l : List Char} {a : Char} (h : l.getLast? = some a) : a ∈ l :=
  List.mem_of_mem_getLast? (by simp [h])

theorem isDigit_false_of_jWs {d : Char} (h : jWs d = true) : d.isDigit = false := by
  have hc : ((d = ' ' ∨ d = '\t') ∨ d = '\n') ∨ d = '\r' := by simpa [jWs] using h
  rcases hc with ((rfl | rfl) | rfl) | rfl <;> decide

theorem stopOk_facts {z : List Char} (hz : stopOk z) :
    z = [] ∨ ∃ d z', z = d :: z' ∧ d.isDigit = false ∧ d ≠ '.' ∧ d ≠ 'e' ∧ d ≠ 'E' := by
  rcases hz with rfl | ⟨d, z', rfl, hd⟩
  · exact Or.inl rfl
  · refine Or.inr ⟨d, z', rfl, ?_⟩
    have hc : (((((d = ' ' ∨ d = '\t') ∨ d = '\n') ∨ d = '\r') ∨ d = ',') ∨ d = ']') ∨
        d = '\x7d' := by
      rcases hd with hws | rfl | rfl | rfl
      · have := by simpa [jWs] using hws
        tauto
      · tauto
      · tauto
      · tauto
    rcases hc with (((((rfl | rfl) | rfl) | rfl) | rfl) | rfl) | rfl <;>
      exact ⟨by decide, by decide, by decide, by decide⟩

theorem parseIntPart_consumed {cs ip r : List Char} (h : parseIntPart cs = some (ip, r)) :
    cs = ip ++ r ∧ ip ≠ [] ∧ (∀ a ∈ ip, a.isDigit = true) ∧
    ∀ z, (z = [] ∨ ∃ d z', z = d :: z' ∧ d.isDigit = false) →
      parseIntPart (ip ++ z) = some (ip, z) := by
  rcases cs with _ | ⟨c, rest0⟩
  · simp [parseIntPart] at h
  · simp only [parseIntPart] at h
    by_cases hc0 : c = '0'
    · rw [if_pos hc0] at h
      subst hc0
      obtain ⟨hip, hr⟩ : ['0'] = ip ∧ rest0 = r := by simpa using h
      subst hip
      subst hr
      refine ⟨rfl, by simp, by simp, ?_⟩
      intro z _
      simp [parseIntPart]
    · rw [if_neg hc0] at h
      by_cases hcd : c.isDigit = true
      · rw [if_pos hcd] at h
        obtain ⟨hip, hr⟩ :
            c :: rest0.takeWhile Char.isDigit = ip ∧ rest0.dropWhile Char.isDigit = r := by
          simpa using h
        subst hip
        subst hr
        refine ⟨by rw [List.cons_append, List.takeWhile_append_dropWhile], by simp, ?_, ?_⟩
        · intro a ha
          rcases List.mem_cons.mp ha with rfl | ha'
          · exact hcd
          · exact List.mem_takeWhile_imp ha'
        · intro z hz
          have htd := takeWhile_append_all (p := Char.isDigit)
            (w := rest0.takeWhile Char.isDigit) (z := z)
            (fun a ha => List.mem_takeWhile_imp ha) hz
          simp [parseIntPart, hc0, hcd, List.cons_append, htd.1, htd.2]
      · rw [if_neg hcd] at h
        simp at h

theorem parseFrac_consumed {cs fp r : List Char} (h : parseFrac cs = some (fp, r)) :
    cs = fp ++ r ∧
    (fp = [] ∨ ∃ ds, fp = '.' :: ds ∧ ds ≠ [] ∧ ∀ a ∈ ds, a.isDigit = true) ∧
    ∀ z, (z = [] ∨ ∃ d z', z = d :: z' ∧ d.isDigit = false ∧ d ≠ '.') →
      parseFrac (fp ++ z) = some (fp, z) := by
  rcases cs with _ | ⟨c, rest0⟩
  · obtain ⟨hfp, hr⟩ : [] = fp ∧ [] = r := by simpa [parseFrac] using h
    subst hfp
    subst hr
    refine ⟨rfl, Or.inl rfl, ?_⟩
    intro z hz
    rcases hz with rfl | ⟨d, z', rfl, hd, hdot⟩
    · rfl
    · simp [parseFrac, hdot]
  · simp only [parseFrac] at h
    by_cases hdot : c = '.'
    · rw [if_pos hdot] at h
      subst hdot
      by_cases hds : rest0.takeWhile Char.isDigit = []
      · rw [if_pos hds] at h
        simp at h
      · rw [if_neg hds] at h
        obtain ⟨hfp, hr⟩ :
            '.' :: rest0.takeWhile Char.isDigit = fp ∧ rest0.dropWhile Char.isDigit = r := by
          simpa using h
        subst hfp
        subst hr
        have hdig : ∀ a ∈ rest0.takeWhile Char.isDigit, a.isDigit = true :=
          fun a ha => List.mem_takeWhile_imp ha
        refine ⟨by rw [List.cons_append, List.takeWhile_append_dropWhile],
          Or.inr ⟨rest0.takeWhile Char.isDigit, rfl, hds, hdig⟩, ?_⟩
        · intro z hz
          have hz' : z = [] ∨ ∃ d z', z = d :: z' ∧ d.isDigit = false := by
            rcases hz with rfl | ⟨d, z', rfl, hd, -⟩
            · exact Or.inl rfl
            · exact Or.inr ⟨d, z', rfl, hd⟩
          have htd := takeWhile_append_all (p := Char.isDigit)
            (w := rest0.takeWhile Char.isDigit) (z := z) hdig hz'
          simp [parseFrac, List.cons_append, htd.1, htd.2, hds]
    · rw [if_neg hdot] at h
      obtain ⟨hfp, hr⟩ : [] = fp ∧ c :: rest0 = r := by simpa using h
      subst hfp
      subst hr
      refine ⟨rfl, Or.inl rfl, ?_⟩
      intro z hz
      rcases hz with rfl | ⟨d, z', rfl, hd, hdot'⟩
      · rfl
      · simp [parseFrac, hdot']

theorem parseExp_consumed {cs ep r : List Char} (h : parseExp cs = some (ep, r)) :
    cs = ep ++ r ∧
    (ep = [] ∨ ((∃ e0 t, ep = e0 :: t ∧ (e0 = 'e' ∨ e0 = 'E')) ∧
      ∃ d, ep.getLast? = some d ∧ d.isDigit = true)) ∧
    ∀ z, (z = [] ∨ ∃ d z', z = d :: z' ∧ d.isDigit = false ∧ d ≠ 'e' ∧ d ≠ 'E') →
      parseExp (ep ++ z) = some (ep, z) := by
  rcases cs with _ | ⟨e, rest0⟩
  · obtain ⟨hep, hr⟩ : [] = ep ∧ [] = r := by simpa [parseExp] using h
    subst hep
    subst hr
    refine ⟨rfl, Or.inl rfl, ?_⟩
    intro z hz
    rcases hz with rfl | ⟨d, z', rfl, hd, hde, hdE⟩
    · rfl
    · simp [parseExp, hde, hdE]
  · simp only [parseExp] at h
    by_cases he : e = 'e' ∨ e = 'E'
    · rw [if_pos he] at h
      rcases rest0 with _ | ⟨d0, r1⟩
      · simp at h
      · dsimp only [] at h
        by_cases hp : d0 = '+'
        · rw [if_pos hp] at h
          subst hp
          by_cases hds : r1.takeWhile Char.isDigit = []
          · simp only [hds, if_pos rfl] at h
            simp at h
          · rw [if_neg hds] at h
            obtain ⟨hep, hr⟩ :
                e :: '+' :: r1.takeWhile Char.isDigit = ep ∧ r1.dropWhile Char.isDigit = r := by
              simpa using h
            subst hep
            subst hr
            have hdig : ∀ a ∈ r1.takeWhile Char.isDigit, a.isDigit = true :=
              fun a ha => List.mem_takeWhile_imp ha
            refine ⟨by simp [List.takeWhile_append_dropWhile], ?_, ?_⟩
            · rcases hgl : (r1.takeWhile Char.isDigit).getLast? with _ | d
              · exact absurd (by simpa using hgl) hds
              · refine Or.inr ⟨⟨e, _, rfl, he⟩, d, ?_, hdig d (getLast?_mem' hgl)⟩
                rw [getLast?_cons_of_ne (by simp [hds]), getLast?_cons_of_ne hds]
                exact hgl
            · intro z hz
              have hz' : z = [] ∨ ∃ d z', z = d :: z' ∧ d.isDigit = false := by
                rcases hz with rfl | ⟨d, z', rfl, hd, -⟩
                · exact Or.inl rfl
                · exact Or.inr ⟨d, z', rfl, hd⟩
              have htd := takeWhile_append_all (p := Char.isDigit)
                (w := r1.takeWhile Char.isDigit) (z := z) hdig hz'
              simp [parseExp, he, List.cons_append, htd.1, htd.2, hds]
        · rw [if_neg hp] at h
          by_cases hm : d0 = '-'
          · rw [if_pos hm] at h
            subst hm
            by_cases hds : r1.takeWhile Char.isDigit = []
            · simp only [hds, if_pos rfl] at h
              simp at h
            · rw [if_neg hds] at h
              obtain ⟨hep, hr⟩ :
                  e :: '-' :: r1.takeWhile Char.isDigit = ep ∧ r1.dropWhile Char.isDigit = r := by
                simpa using h
              subst hep
              subst hr
              have hdig : ∀ a ∈ r1.takeWhile Char.isDigit, a.isDigit = true :=
                fun a ha => List.mem_takeWhile_imp ha
              refine ⟨by simp [List.takeWhile_append_dropWhile], ?_, ?_⟩
              · rcases hgl : (r1.takeWhile Char.isDigit).getLast? with _ | d
                · exact absurd (by simpa using hgl) hds
                · refine Or.inr ⟨⟨e, _, rfl, he⟩, d, ?_, hdig d (getLast?_mem' hgl)⟩
                  rw [getLast?_cons_of_ne (by simp [hds]), getLast?_cons_of_ne hds]
                  exact hgl
              · intro z hz
                have hz' : z = [] ∨ ∃ d z', z = d :: z' ∧ d.isDigit = false := by
                  rcases hz with rfl | ⟨d, z', rfl, hd, -⟩
                  · exact Or.inl rfl
                  · exact Or.inr ⟨d, z', rfl, hd⟩
                have htd := takeWhile_append_all (p := Char.isDigit)
                  (w := r1.takeWhile Char.isDigit) (z := z) hdig hz'
                simp [parseExp, he, hp, List.cons_append, htd.1, htd.2, hds]
          · rw [if_neg hm] at h
            by_cases hds : (d0 :: r1).takeWhile Char.isDigit = []
            · simp only [hds, if_pos rfl] at h
              simp at h
            · rw [if_neg hds] at h
              obtain ⟨hep, hr⟩ :
                  e :: (d0 :: r1).takeWhile Char.isDigit = ep ∧
                    (d0 :: r1).dropWhile Char.isDigit = r := by
                simpa using h
              subst hep
              subst hr
              have hdig : ∀ a ∈ (d0 :: r1).takeWhile Char.isDigit, a.isDigit = true :=
                fun a ha => List.mem_takeWhile_imp ha
              refine ⟨by simp [List.takeWhile_append_dropWhile], ?_, ?_⟩
              · rcases hgl : ((d0 :: r1).takeWhile Char.isDigit).getLast? with _ | d
                · exact absurd (by simpa using hgl) hds
                · refine Or.inr ⟨⟨e, _, rfl, he⟩, d, ?_, hdig d (getLast?_mem' hgl)⟩
                  rw [getLast?_cons_of_ne hds]
                  exact hgl
              · intro z hz
                have hz' : z = [] ∨ ∃ d z', z = d :: z' ∧ d.isDigit = false := by
                  rcases hz with rfl | ⟨d, z', rfl, hd, -⟩
                  · exact Or.inl rfl
                  · exact Or.inr ⟨d, z', rfl, hd⟩
                have hd0 : d0.isDigit = true := by
                  by_cases hdd : d0.isDigit = true
                  · exact hdd
                  · exact absurd (by simp [List.takeWhile_cons, hdd]) hds
                have hne1 : d0 ≠ '+' := isDigit_ne hd0 (by decide)
                have hne2 : d0 ≠ '-' := isDigit_ne hd0 (by decide)
                have htw : (d0 :: r1).takeWhile Char.isDigit
                    = d0 :: r1.takeWhile Char.isDigit := by
                  simp [List.takeWhile_cons, hd0]
                have hdig1 : ∀ a ∈ r1.takeWhile Char.isDigit, a.isDigit = true :=
                  fun a ha => List.mem_takeWhile_imp ha
                have htd := takeWhile_append_all (p := Char.isDigit)
                  (w := r1.takeWhile Char.isDigit) (z := z) hdig1 hz'
                rw [htw]
                simp [parseExp, he, hne1, hne2, List.cons_append, List.takeWhile_cons, hd0,
                  List.dropWhile_cons, htd.1, htd.2]
    · rw [if_neg he] at h
      obtain ⟨hep, hr⟩ : [] = ep ∧ e :: rest0 = r := by simpa using h
      subst hep
      subst hr
      refine ⟨rfl, Or.inl rfl, ?_⟩
      intro z hz
      rcases hz with rfl | ⟨d, z', rfl, hd, hde, hdE⟩
      · rfl
      · simp [parseExp, hde, hdE]

theorem parseNumber_consumed {cs : List Char} {lex : String} {rest : List Char}
    (h : parseNumber cs = some (lex, rest)) :
    cs = lex.data ++ rest ∧ lex.data ≠ [] ∧
    (∃ c t, lex.data = c :: t ∧ (c = 'N' ∨ c = 'I' ∨ c = '-' ∨ c.isDigit = true)) ∧
    (∀ d, lex.data.getLast? = some d → pyWs d = false) ∧
    ∀ z, stopOk z → parseNumber (lex.data ++ z) = some (lex, z) := by
  simp only [parseNumber, bind] at h
  by_cases hN : (['N', 'a', 'N'] : List Char).isPrefixOf cs = true
  · rw [if_pos hN] at h
    obtain ⟨t, ht⟩ := isPrefixOf_iffPre.mp hN
    subst ht
    obtain ⟨hlex, hrest⟩ : "NaN" = lex ∧ t = rest := by simpa using h
    subst hlex
    subst hrest
    refine ⟨rfl, by simp, ⟨'N', ['a', 'N'], rfl, Or.inl rfl⟩, ?_, ?_⟩
    · intro d hd
      have hd' : d = 'N' := by simpa using hd.symm
      subst hd'
      decide
    · intro z _
      have hpre : (['N', 'a', 'N'] : List Char).isPrefixOf (['N', 'a', 'N'] ++ z) = true :=
        isPrefixOf_iffPre.mpr (List.prefix_append _ _)
      simp [parseNumber, hpre]
  · rw [if_neg hN] at h
    by_cases hI : (['I', 'n', 'f', 'i', 'n', 'i', 't', 'y'] : List Char).isPrefixOf cs = true
    · rw [if_pos hI] at h
      obtain ⟨t, ht⟩ := isPrefixOf_iffPre.mp hI
      subst ht
      obtain ⟨hlex, hrest⟩ : "Infinity" = lex ∧ t = rest := by simpa using h
      subst hlex
      subst hrest
      refine ⟨rfl, by simp, ⟨'I', _, rfl, Or.inr (Or.inl rfl)⟩, ?_, ?_⟩
      · intro d hd
        have hd' : d = 'y' := by simpa using hd.symm
        subst hd'
        decide
      · intro z _
        have hpre : (['I', 'n', 'f', 'i', 'n', 'i', 't', 'y'] : List Char).isPrefixOf
            (['I', 'n', 'f', 'i', 'n', 'i', 't', 'y'] ++ z) = true :=
          isPrefixOf_iffPre.mpr (List.prefix_append _ _)
        simp [parseNumber, hpre, List.isPrefixOf]
    · rw [if_neg hI] at h
      by_cases hmI : (['-', 'I', 'n', 'f', 'i', 'n', 'i', 't', 'y'] : List Char).isPrefixOf cs
          = true
      · rw [if_pos hmI] at h
        obtain ⟨t, ht⟩ := isPrefixOf_iffPre.mp hmI
        subst ht
        obtain ⟨hlex, hrest⟩ : "-Infinity" = lex ∧ t = rest := by simpa using h
        subst hlex
        subst hrest
        refine ⟨rfl, by simp, ⟨'-', _, rfl, Or.inr (Or.inr (Or.inl rfl))⟩, ?_, ?_⟩
        · intro d hd
          have hd' : d = 'y' := by simpa using hd.symm
          subst hd'
          decide
        · intro z _
          have hpre : (['-', 'I', 'n', 'f', 'i', 'n', 'i', 't', 'y'] : List Char).isPrefixOf
              (['-', 'I', 'n', 'f', 'i', 'n', 'i', 't', 'y'] ++ z) = true :=
            isPrefixOf_iffPre.mpr (List.prefix_append _ _)
          simp [parseNumber, hpre, List.isPrefixOf]
      · rw [if_neg hmI] at h
        rcases cs with _ | ⟨c, rest0⟩
        · simp at h
        · dsimp only [] at h
          by_cases hc : c = '-'
          · rw [if_pos hc] at h
            subst hc
            rw [Option.bind_eq_some] at h
            obtain ⟨⟨ip, r1⟩, hip, h⟩ := h
            rw [Option.bind_eq_some] at h
            obtain ⟨⟨fp, r2⟩, hfr, h⟩ := h
            rw [Option.bind_eq_some] at h
            obtain ⟨⟨ep, r3⟩, hex, h⟩ := h
            obtain ⟨hlex, hrest⟩ : String.mk ('-' :: (ip ++ fp ++ ep)) = lex ∧ r3 = rest := by
              simpa using h
            subst hlex
            subst hrest
            obtain ⟨hipEq, hipNe, hipDig, hipExt⟩ := parseIntPart_consumed hip
            obtain ⟨hfrEq, hfrSh, hfrExt⟩ := parseFrac_consumed hfr
            obtain ⟨hexEq, hexSh, hexExt⟩ := parseExp_consumed hex
            subst hipEq
            subst hfrEq
            subst hexEq
            obtain ⟨c0, ipt, rfl⟩ : ∃ c0 ipt, ip = c0 :: ipt := by
              rcases ip with _ | ⟨c0, ipt⟩
              · exact absurd rfl hipNe
              · exact ⟨c0, ipt, rfl⟩
            have hc0 : c0.isDigit = true := hipDig c0 (by simp)
            refine ⟨by simp, by simp, ⟨'-', _, rfl, Or.inr (Or.inr (Or.inl rfl))⟩, ?_, ?_⟩
            · intro d hd
              apply pyWs_false_of_isDigit
              rcases hexSh with hepNil | ⟨⟨e0, te, hepC, he0⟩, de, hepL, hdeDig⟩
              · subst hepNil
                rcases hfrSh with hfpNil | ⟨ds, hfpC, hdsNe, hdsDig⟩
                · subst hfpNil
                  simp only [List.append_nil] at hd
                  rw [getLast?_cons_of_ne (by simp)] at hd
                  exact hipDig d (getLast?_mem' hd)
                · subst hfpC
                  simp only [List.append_nil] at hd
                  rw [getLast?_cons_of_ne (by simp),
                    List.getLast?_append_of_ne_nil _ (by simp),
                    getLast?_cons_of_ne hdsNe] at hd
                  exact hdsDig d (getLast?_mem' hd)
              · have hepNe : ep ≠ [] := by rw [hepC]; simp
                rw [getLast?_cons_of_ne (by simp),
                  List.getLast?_append_of_ne_nil _ hepNe, hepL] at hd
                obtain rfl : de = d := by simpa using hd
                exact hdeDig
            · intro z hz
              have hzf := stopOk_facts hz
              have hbnd3 : z = [] ∨ ∃ d z', z = d :: z' ∧ d.isDigit = false ∧
                  d ≠ 'e' ∧ d ≠ 'E' := by
                rcases hzf with rfl | ⟨d, z', rfl, h1, h2, h3, h4⟩
                · exact Or.inl rfl
                · exact Or.inr ⟨d, z', rfl, h1, h3, h4⟩
              have hE3 := hexExt z hbnd3
              have hbnd2 : ep ++ z = [] ∨ ∃ d z', ep ++ z = d :: z' ∧ d.isDigit = false ∧
                  d ≠ '.' := by
                rcases hexSh with hepNil | ⟨⟨e0, te, hepC, he0⟩, -⟩
                · subst hepNil
                  rcases hzf with rfl | ⟨d, z', rfl, h1, h2, h3, h4⟩
                  · exact Or.inl rfl
                  · exact Or.inr ⟨d, z', rfl, h1, h2⟩
                · subst hepC
                  refine Or.inr ⟨e0, te ++ z, rfl, ?_, ?_⟩
                  · rcases he0 with rfl | rfl <;> decide
                  · rcases he0 with rfl | rfl <;> decide
              have hE2 := hfrExt (ep ++ z) hbnd2
              have hbnd1 : fp ++ (ep ++ z) = [] ∨ ∃ d z', fp ++ (ep ++ z) = d :: z' ∧
                  d.isDigit = false := by
                rcases hfrSh with hfpNil | ⟨ds, hfpC, hdsNe, hdsDig⟩
                · subst hfpNil
                  rcases hbnd2 with he | ⟨d, z', heq, h1, -⟩
                  · exact Or.inl (by simpa using he)
                  · exact Or.inr ⟨d, z', by simpa using heq, h1⟩
                · subst hfpC
                  exact Or.inr ⟨'.', ds ++ (ep ++ z), rfl, by decide⟩
              have hE1 := hipExt (fp ++ (ep ++ z)) hbnd1
              have hIc0 : ('I' == c0) = false := by
                rw [beq_eq_false_iff_ne]
                exact Ne.symm (isDigit_ne hc0 (by decide))
              simp only [List.cons_append, List.append_assoc] at hE1 ⊢
              simp [parseNumber, bind, List.isPrefixOf, hIc0, hE1, hE2, hE3,
                List.append_assoc]
          · rw [if_neg hc] at h
            rw [Option.bind_eq_some] at h
            obtain ⟨⟨ip, r1⟩, hip, h⟩ := h
            rw [Option.bind_eq_some] at h
            obtain ⟨⟨fp, r2⟩, hfr, h⟩ := h
            rw [Option.bind_eq_some] at h
            obtain ⟨⟨ep, r3⟩, hex, h⟩ := h
            obtain ⟨hlex, hrest⟩ : String.mk (ip ++ fp ++ ep) = lex ∧ r3 = rest := by
              simpa using h
            subst hlex
            subst hrest
            obtain ⟨hipEq, hipNe, hipDig, hipExt⟩ := parseIntPart_consumed hip
            obtain ⟨hfrEq, hfrSh, hfrExt⟩ := parseFrac_consumed hfr
            obtain ⟨hexEq, hexSh, hexExt⟩ := parseExp_consumed hex
            obtain ⟨c0, ipt, rfl⟩ : ∃ c0 ipt, ip = c0 :: ipt := by
              rcases ip with _ | ⟨c0, ipt⟩
              · exact absurd rfl hipNe
              · exact ⟨c0, ipt, rfl⟩
            have hc0 : c0.isDigit = true := hipDig c0 (by simp)
            obtain ⟨hcc0, hrest0⟩ : c = c0 ∧ rest0 = ipt ++ r1 := by
              rw [List.cons_append] at hipEq
              exact ⟨by injection hipEq, by injection hipEq⟩
            subst hcc0
            subst hrest0
            subst hfrEq
            subst hexEq
            refine ⟨by simp, by simp, ⟨c, _, rfl, Or.inr (Or.inr (Or.inr hc0))⟩, ?_, ?_⟩
            · intro d hd
              apply pyWs_false_of_isDigit
              rcases hexSh with hepNil | ⟨⟨e0, te, hepC, he0⟩, de, hepL, hdeDig⟩
              · subst hepNil
                rcases hfrSh with hfpNil | ⟨ds, hfpC, hdsNe, hdsDig⟩
                · subst hfpNil
                  simp only [List.append_nil] at hd
                  exact hipDig d (getLast?_mem' hd)
                · subst hfpC
                  simp only [List.append_nil] at hd
                  rw [List.getLast?_append_of_ne_nil _ (by simp),
                    getLast?_cons_of_ne hdsNe] at hd
                  exact hdsDig d (getLast?_mem' hd)
              · have hepNe : ep ≠ [] := by rw [hepC]; simp
                rw [List.getLast?_append_of_ne_nil _ hepNe, hepL] at hd
                obtain rfl : de = d := by simpa using hd
                exact hdeDig
            · intro z hz
              have hzf := stopOk_facts hz
              have hbnd3 : z = [] ∨ ∃ d z', z = d :: z' ∧ d.isDigit = false ∧
                  d ≠ 'e' ∧ d ≠ 'E' := by
                rcases hzf with rfl | ⟨d, z', rfl, h1, h2, h3, h4⟩
                · exact Or.inl rfl
                · exact Or.inr ⟨d, z', rfl, h1, h3, h4⟩
              have hE3 := hexExt z hbnd3
              have hbnd2 : ep ++ z = [] ∨ ∃ d z', ep ++ z = d :: z' ∧ d.isDigit = false ∧
                  d ≠ '.' := by
                rcases hexSh with hepNil | ⟨⟨e0, te, hepC, he0⟩, -⟩
                · subst hepNil
                  rcases hzf with rfl | ⟨d, z', rfl, h1, h2, h3, h4⟩
                  · exact Or.inl rfl
                  · exact Or.inr ⟨d, z', rfl, h1, h2⟩
                · subst hepC
                  refine Or.inr ⟨e0, te ++ z, rfl, ?_, ?_⟩
                  · rcases he0 with rfl | rfl <;> decide
                  · rcases he0 with rfl | rfl <;> decide
              have hE2 := hfrExt (ep ++ z) hbnd2
              have hbnd1 : fp ++ (ep ++ z) = [] ∨ ∃ d z', fp ++ (ep ++ z) = d :: z' ∧
                  d.isDigit = false := by
                rcases hfrSh with hfpNil | ⟨ds, hfpC, hdsNe, hdsDig⟩
                · subst hfpNil
                  rcases hbnd2 with he | ⟨d, z', heq, h1, -⟩
                  · exact Or.inl (by simpa using he)
                  · exact Or.inr ⟨d, z', by simpa using heq, h1⟩
                · subst hfpC
                  exact Or.inr ⟨'.', ds ++ (ep ++ z), rfl, by decide⟩
              have hE1 := hipExt (fp ++ (ep ++ z)) hbnd1
              have hNc0 : ('N' == c) = false := by
                rw [beq_eq_false_iff_ne]
                exact Ne.symm (isDigit_ne hc0 (by decide))
              have hIc0 : ('I' == c) = false := by
                rw [beq_eq_false_iff_ne]
                exact Ne.symm (isDigit_ne hc0 (by decide))
              have hmc0 : ('-' == c) = false := by
                rw [beq_eq_false_iff_ne]
                exact Ne.symm (isDigit_ne hc0 (by decide))
              simp only [List.cons_append, List.append_assoc] at hE1 ⊢
              simp [parseNumber, bind, List.isPrefixOf, hNc0, hIc0, hmc0, hc, hE1, hE2,
                hE3, List.append_assoc]

theorem pv_nil_none : ∀ (f : Nat) (m : PMode), pv f m [] = none := by
  intro f
  induction f with
  | zero => intro m; rfl
  | succ n IH =>
    intro m
    cases m with
    | top => rfl
    | arrLoop acc => simp [pv, IH PMode.top]
    | objLoop acc => rfl

theorem skipWs_decomp (l : List Char) : ∃ w, l = w ++ skipWs l ∧ ∀ a ∈ w, jWs a = true :=
  ⟨l.takeWhile jWs, (List.takeWhile_append_dropWhile jWs l).symm,
    fun _ ha => List.mem_takeWhile_imp ha⟩

theorem stopOk_ws_append {w t : List Char} (hw : ∀ a ∈ w, jWs a = true) (h : stopOk t) :
    stopOk (w ++ t) := by
  rcases w with _ | ⟨a, w'⟩
  · simpa using h
  · exact Or.inr ⟨a, w' ++ t, rfl, Or.inl (hw a (by simp))⟩

theorem stopOk_comma (t : List Char) : stopOk (',' :: t) :=
  Or.inr ⟨',', t, rfl, Or.inr (Or.inl rfl)⟩

theorem stopOk_rbrack (t : List Char) : stopOk (']' :: t) :=
  Or.inr ⟨']', t, rfl, Or.inr (Or.inr (Or.inl rfl))⟩

theorem stopOk_rbrace (t : List Char) : stopOk ('\x7d' :: t) :=
  Or.inr ⟨'\x7d', t, rfl, Or.inr (Or.inr (Or.inr rfl))⟩

theorem headNum_facts {c1 : Char}
    (h : c1 = 'N' ∨ c1 = 'I' ∨ c1 = '-' ∨ c1.isDigit = true) :
    isValueStart c1 ∧ ¬c1 = '"' ∧ ¬c1 = '\x7b' ∧ ¬c1 = '[' ∧ ¬c1 = 't' ∧ ¬c1 = 'f' ∧
      ¬c1 = 'n' := by
  rcases h with rfl | rfl | rfl | hd
  · exact ⟨Or.inr (Or.inr (Or.inr (Or.inr (Or.inr (Or.inr (Or.inl rfl)))))),
      by decide, by decide, by decide, by decide, by decide, by decide⟩
  · exact ⟨Or.inr (Or.inr (Or.inr (Or.inr (Or.inr (Or.inr (Or.inr (Or.inl rfl))))))),
      by decide, by decide, by decide, by decide, by decide, by decide⟩
  · exact ⟨Or.inr (Or.inr (Or.inr (Or.inr (Or.inr (Or.inr (Or.inr (Or.inr (Or.inl rfl)))))))),
      by decide, by decide, by decide, by decide, by decide, by decide⟩
  · exact ⟨Or.inr (Or.inr (Or.inr (Or.inr (Or.inr (Or.inr (Or.inr (Or.inr (Or.inr hd)))))))),
      isDigit_ne hd (by decide), isDigit_ne hd (by decide), isDigit_ne hd (by decide),
      isDigit_ne hd (by decide), isDigit_ne hd (by decide), isDigit_ne hd (by decide)⟩

theorem pv_consumed :
    ∀ (f : Nat) (m : PMode) (cs : List Char) (v : Json) (rest : List Char),
      pv f m cs = some (v, rest) →
      ∃ x d xt, cs = x ++ rest ∧ x = d :: xt ∧ isValueStart d ∧
        (∀ acc, m = PMode.objLoop acc → d = '"') ∧
        (∀ e, x.getLast? = some e → pyWs e = false) ∧
        ∀ (r' : List Char) (g : Nat), stopOk r' → pvNeed m (x ++ r').length ≤ g →
          pv g m (x ++ r') = some (v, r') := by
  intro f
  induction f with
  | zero => intro m cs v rest h; simp [pv] at h
  | succ n IH =>
    intro m cs v rest h
    cases m with
    | top =>
      rcases cs with _ | ⟨c, rest0⟩
      · simp [pv] at h
      · simp only [pv] at h
        by_cases hq : c = '"'
        · rw [if_pos hq] at h
          subst hq
          obtain ⟨⟨content, r1⟩, hps, hmap⟩ := Option.map_eq_some'.mp h
          simp only [Prod.mk.injEq] at hmap
          obtain ⟨hv, hr1⟩ := hmap
          subst hv
          subst hr1
          obtain ⟨xk, hkEq, hkNe, hkLast, -, hkExt⟩ := parseStrAux_consumed _ _ _ _ hps
          subst hkEq
          refine ⟨'"' :: xk, '"', xk, by simp, rfl, Or.inl rfl,
            fun acc hacc => PMode.noConfusion hacc, ?_, ?_⟩
          · intro e he
            rw [getLast?_cons_of_ne hkNe, hkLast] at he
            obtain rfl : '"' = e := by simpa using he
            decide
          · intro r' g hstop hg
            rcases g with _ | g1
            · simp only [pvNeed] at hg; omega
            · have hkr := hkExt r' ((xk ++ r').length + 1) (by omega)
              simp only [List.length_append] at hkr
              simp only [List.cons_append]
              simp [pv, hkr]
        · rw [if_neg hq] at h
          by_cases hbr : c = '\x7b'
          · rw [if_pos hbr] at h
            subst hbr
            obtain ⟨w, hwEq, hwAll⟩ := skipWs_decomp rest0
            rcases hm2 : skipWs rest0 with _ | ⟨d2, m2⟩
            · rw [hm2] at h; simp at h
            · rw [hm2] at h
              rw [hm2] at hwEq
              dsimp only [] at h
              by_cases hd2 : d2 = '\x7d'
              · rw [if_pos hd2] at h
                subst hd2
                obtain ⟨hv, hrest⟩ : Json.obj [] = v ∧ m2 = rest := by simpa using h
                subst hv
                subst hrest
                subst hwEq
                refine ⟨'\x7b' :: (w ++ ['\x7d']), '\x7b', _, by simp, rfl,
                  Or.inr (Or.inl rfl), fun acc hacc => PMode.noConfusion hacc, ?_, ?_⟩
                · intro e he
                  rw [getLast?_cons_of_ne (by simp),
                    List.getLast?_append_of_ne_nil _ (by simp)] at he
                  obtain rfl : '\x7d' = e := by simpa using he
                  decide
                · intro r' g hstop hg
                  rcases g with _ | g1
                  · simp only [pvNeed] at hg; omega
                  · have hsk : skipWs (w ++ ('\x7d' :: r')) = '\x7d' :: r' :=
                      skipWs_append_all hwAll (Or.inr ⟨'\x7d', r', rfl, by decide⟩)
                    simp only [List.cons_append, List.append_assoc]
                    simp [pv, hsk]
              · rw [if_neg hd2] at h
                obtain ⟨x2, dd, xt2, hx2eq, hx2cons, hx2vs, hx2obj, hx2last, hx2ext⟩ :=
                  IH (PMode.objLoop []) (d2 :: m2) v rest h
                subst hx2cons
                rw [hx2eq] at hwEq
                subst hwEq
                refine ⟨'\x7b' :: (w ++ (dd :: xt2)), '\x7b', _, by simp, rfl,
                  Or.inr (Or.inl rfl), fun acc hacc => PMode.noConfusion hacc, ?_, ?_⟩
                · intro e he
                  rw [getLast?_cons_of_ne (by simp),
                    List.getLast?_append_of_ne_nil _ (by simp)] at he
                  exact hx2last e he
                · intro r' g hstop hg
                  rcases g with _ | g1
                  · simp only [pvNeed] at hg; omega
                  · have hx2r := hx2ext r' g1 hstop (by
                      simp only [pvNeed, List.length_append, List.length_cons] at hg ⊢
                      omega)
                    have hsk : skipWs (w ++ ((dd :: xt2) ++ r')) = (dd :: xt2) ++ r' :=
                      skipWs_append_all hwAll
                        (Or.inr ⟨dd, _, rfl, valueStart_jWs_false hx2vs⟩)
                    have hddne : ¬ dd = '\x7d' := by
                      rw [hx2obj [] rfl]
                      decide
                    simp only [List.cons_append, List.append_assoc] at hx2r hsk ⊢
                    simp [pv, hsk, hddne, hx2r]
          · rw [if_neg hbr] at h
            by_cases hbk : c = '['
            · rw [if_pos hbk] at h
              subst hbk
              obtain ⟨w, hwEq, hwAll⟩ := skipWs_decomp rest0
              rcases hm2 : skipWs rest0 with _ | ⟨d2, m2⟩
              · rw [hm2] at h; simp at h
              · rw [hm2] at h
                rw [hm2] at hwEq
                dsimp only [] at h
                by_cases hd2 : d2 = ']'
                · rw [if_pos hd2] at h
                  subst hd2
                  obtain ⟨hv, hrest⟩ : Json.arr [] = v ∧ m2 = rest := by simpa using h
                  subst hv
                  subst hrest
                  subst hwEq
                  refine ⟨'[' :: (w ++ [']']), '[', _, by simp, rfl,
                    Or.inr (Or.inr (Or.inl rfl)), fun acc hacc => PMode.noConfusion hacc, ?_, ?_⟩
                  · intro e he
                    rw [getLast?_cons_of_ne (by simp),
                      List.getLast?_append_of_ne_nil _ (by simp)] at he
                    obtain rfl : ']' = e := by simpa using he
                    decide
                  · intro r' g hstop hg
                    rcases g with _ | g1
                    · simp only [pvNeed] at hg; omega
                    · have hsk : skipWs (w ++ (']' :: r')) = ']' :: r' :=
                        skipWs_append_all hwAll (Or.inr ⟨']', r', rfl, by decide⟩)
                      simp only [List.cons_append, List.append_assoc]
                      simp [pv, hsk]
                · rw [if_neg hd2] at h
                  obtain ⟨x2, dd, xt2, hx2eq, hx2cons, hx2vs, -, hx2last, hx2ext⟩ :=
                    IH (PMode.arrLoop []) (d2 :: m2) v rest h
                  subst hx2cons
                  rw [hx2eq] at hwEq
                  subst hwEq
                  refine ⟨'[' :: (w ++ (dd :: xt2)), '[', _, by simp, rfl,
                    Or.inr (Or.inr (Or.inl rfl)), fun acc hacc => PMode.noConfusion hacc, ?_, ?_⟩
                  · intro e he
                    rw [getLast?_cons_of_ne (by simp),
                      List.getLast?_append_of_ne_nil _ (by simp)] at he
                    exact hx2last e he
                  · intro r' g hstop hg
                    rcases g with _ | g1
                    · simp only [pvNeed] at hg; omega
                    · have hx2r := hx2ext r' g1 hstop (by
                        simp only [pvNeed, List.length_append, List.length_cons] at hg ⊢
                        omega)
                      have hsk : skipWs (w ++ ((dd :: xt2) ++ r')) = (dd :: xt2) ++ r' :=
                        skipWs_append_all hwAll
                          (Or.inr ⟨dd, _, rfl, valueStart_jWs_false hx2vs⟩)
                      have hddne : ¬ dd = ']' := valueStart_ne_rbrack hx2vs
                      simp only [List.cons_append, List.append_assoc] at hx2r hsk ⊢
                      simp [pv, hsk, hddne, hx2r]
            · rw [if_neg hbk] at h
              by_cases hT : c = 't'
              · rw [if_pos hT] at h
                subst hT
                by_cases hpre : (['r', 'u', 'e'] : List Char).isPrefixOf rest0 = true
                · rw [if_pos hpre] at h
                  obtain ⟨t1, ht1⟩ := isPrefixOf_iffPre.mp hpre
                  subst ht1
                  obtain ⟨hv, hrest⟩ : Json.bool true = v ∧ t1 = rest := by simpa using h
                  subst hv
                  subst hrest
                  refine ⟨['t', 'r', 'u', 'e'], 't', _, by simp, rfl,
                    Or.inr (Or.inr (Or.inr (Or.inl rfl))),
                    fun acc hacc => PMode.noConfusion hacc, ?_, ?_⟩
                  · intro e he
                    obtain rfl : 'e' = e := by simpa using he
                    decide
                  · intro r' g hstop hg
                    rcases g with _ | g1
                    · simp only [pvNeed] at hg; omega
                    · have hpre2 : (['r', 'u', 'e'] : List Char).isPrefixOf
                          (['r', 'u', 'e'] ++ r') = true :=
                        isPrefixOf_iffPre.mpr (List.prefix_append _ _)
                      simp [pv, hpre2]
                · rw [if_neg hpre] at h
                  simp at h
              · rw [if_neg hT] at h
                by_cases hF : c = 'f'
                · rw [if_pos hF] at h
                  subst hF
                  by_cases hpre : (['a', 'l', 's', 'e'] : List Char).isPrefixOf rest0 = true
                  · rw [if_pos hpre] at h
                    obtain ⟨t1, ht1⟩ := isPrefixOf_iffPre.mp hpre
                    subst ht1
                    obtain ⟨hv, hrest⟩ : Json.bool false = v ∧ t1 = rest := by simpa using h
                    subst hv
                    subst hrest
                    refine ⟨['f', 'a', 'l', 's', 'e'], 'f', _, by simp, rfl,
                      Or.inr (Or.inr (Or.inr (Or.inr (Or.inl rfl)))),
                      fun acc hacc => PMode.noConfusion hacc, ?_, ?_⟩
                    · intro e he
                      obtain rfl : 'e' = e := by simpa using he
                      decide
                    · intro r' g hstop hg
                      rcases g with _ | g1
                      · simp only [pvNeed] at hg; omega
                      · have hpre2 : (['a', 'l', 's', 'e'] : List Char).isPrefixOf
                            (['a', 'l', 's', 'e'] ++ r') = true :=
                          isPrefixOf_iffPre.mpr (List.prefix_append _ _)
                        simp [pv, hpre2]
                  · rw [if_neg hpre] at h
                    simp at h
                · rw [if_neg hF] at h
                  by_cases hN2 : c = 'n'
                  · rw [if_pos hN2] at h
                    subst hN2
                    by_cases hpre : (['u', 'l', 'l'] : List Char).isPrefixOf rest0 = true
                    · rw [if_pos hpre] at h
                      obtain ⟨t1, ht1⟩ := isPrefixOf_iffPre.mp hpre
                      subst ht1
                      obtain ⟨hv, hrest⟩ : Json.null = v ∧ t1 = rest := by simpa using h
                      subst hv
                      subst hrest
                      refine ⟨['n', 'u', 'l', 'l'], 'n', _, by simp, rfl,
                        Or.inr (Or.inr (Or.inr (Or.inr (Or.inr (Or.inl rfl))))),
                        fun acc hacc => PMode.noConfusion hacc, ?_, ?_⟩
                      · intro e he
                        obtain rfl : 'l' = e := by simpa using he
                        decide
                      · intro r' g hstop hg
                        rcases g with _ | g1
                        · simp only [pvNeed] at hg; omega
                        · have hpre2 : (['u', 'l', 'l'] : List Char).isPrefixOf
                              (['u', 'l', 'l'] ++ r') = true :=
                            isPrefixOf_iffPre.mpr (List.prefix_append _ _)
                          simp [pv, hpre2]
                    · rw [if_neg hpre] at h
                      simp at h
                  · rw [if_neg hN2] at h
                    obtain ⟨⟨lexS, r1⟩, hpn, hmap⟩ := Option.map_eq_some'.mp h
                    simp only [Prod.mk.injEq] at hmap
                    obtain ⟨hv, hr1⟩ := hmap
                    subst hv
                    subst hr1
                    obtain ⟨hpnEq, hpnNe, ⟨c1, t1, hC, hd1⟩, hpnLast, hpnExt⟩ :=
                      parseNumber_consumed hpn
                    obtain ⟨hvs, hne1, hne2, hne3, hne4, hne5, hne6⟩ := headNum_facts hd1
                    refine ⟨lexS.data, c1, t1, hpnEq, hC, hvs,
                      fun acc hacc => PMode.noConfusion hacc, hpnLast, ?_⟩
                    intro r' g hstop hg
                    rcases g with _ | g1
                    · simp only [pvNeed] at hg; omega
                    · have hx := hpnExt r' hstop
                      rw [hC] at hx ⊢
                      simp only [List.cons_append] at hx ⊢
                      simp [pv, hne1, hne2, hne3, hne4, hne5, hne6, hx]
    | arrLoop acc =>
      simp only [pv] at h
      rcases hv1 : pv n PMode.top cs with _ | ⟨v1, r1⟩
      · rw [hv1] at h; simp at h
      · rw [hv1] at h
        dsimp only [] at h
        obtain ⟨x1, d1, xt1, hx1eq, hx1cons, hx1vs, -, hx1last, hx1ext⟩ :=
          IH PMode.top cs v1 r1 hv1
        subst hx1cons
        obtain ⟨w2, hw2eq, hw2all⟩ := skipWs_decomp r1
        rcases hm2 : skipWs r1 with _ | ⟨d2, m2⟩
        · rw [hm2] at h; simp at h
        · rw [hm2] at h
          rw [hm2] at hw2eq
          dsimp only [] at h
          by_cases hd2 : d2 = ','
          · rw [if_pos hd2] at h
            subst hd2
            obtain ⟨w3, hw3eq, hw3all⟩ := skipWs_decomp m2
            obtain ⟨x2, dd2, xt2, hx2eq, hx2cons, hx2vs, -, hx2last, hx2ext⟩ :=
              IH (PMode.arrLoop (acc ++ [v1])) (skipWs m2) v rest h
            subst hx2cons
            rw [hx2eq] at hw3eq
            subst hw3eq
            subst hw2eq
            subst hx1eq
            refine ⟨d1 :: (xt1 ++ (w2 ++ (',' :: (w3 ++ (dd2 :: xt2))))), d1, _,
              by simp, rfl, hx1vs, fun acc2 hacc => PMode.noConfusion hacc, ?_, ?_⟩
            · intro e he
              rw [getLast?_cons_of_ne (by simp),
                List.getLast?_append_of_ne_nil _ (by simp),
                List.getLast?_append_of_ne_nil _ (by simp),
                getLast?_cons_of_ne (by simp),
                List.getLast?_append_of_ne_nil _ (by simp)] at he
              exact hx2last e he
            · intro r' g hstop hg
              rcases g with _ | g1
              · simp only [pvNeed] at hg; omega
              · have hstop1 : stopOk (w2 ++ (',' :: (w3 ++ ((dd2 :: xt2) ++ r')))) :=
                  stopOk_ws_append hw2all (stopOk_comma _)
                have hx1r := hx1ext (w2 ++ (',' :: (w3 ++ ((dd2 :: xt2) ++ r')))) g1 hstop1
                  (by simp only [pvNeed, List.length_append, List.length_cons] at hg ⊢
                      omega)
                have hx2r := hx2ext r' g1 hstop
                  (by simp only [pvNeed, List.length_append, List.length_cons] at hg ⊢
                      omega)
                have hsk1 : skipWs (w2 ++ (',' :: (w3 ++ ((dd2 :: xt2) ++ r'))))
                    = ',' :: (w3 ++ ((dd2 :: xt2) ++ r')) :=
                  skipWs_append_all hw2all (Or.inr ⟨',', _, rfl, by decide⟩)
                have hsk2 : skipWs (w3 ++ ((dd2 :: xt2) ++ r')) = (dd2 :: xt2) ++ r' :=
                  skipWs_append_all hw3all
                    (Or.inr ⟨dd2, _, rfl, valueStart_jWs_false hx2vs⟩)
                simp only [List.cons_append, List.append_assoc] at hx1r hx2r hsk1 hsk2 ⊢
                simp [pv, hx1r, hsk1, hsk2, hx2r]
          · rw [if_neg hd2] at h
            by_cases hd2b : d2 = ']'
            · rw [if_pos hd2b] at h
              subst hd2b
              obtain ⟨hv, hrest⟩ : Json.arr (acc ++ [v1]) = v ∧ m2 = rest := by simpa using h
              subst hv
              subst hrest
              subst hw2eq
              subst hx1eq
              refine ⟨d1 :: (xt1 ++ (w2 ++ [']'])), d1, _, by simp, rfl, hx1vs,
                fun acc2 hacc => PMode.noConfusion hacc, ?_, ?_⟩
              · intro e he
                rw [getLast?_cons_of_ne (by simp),
                  List.getLast?_append_of_ne_nil _ (by simp),
                  List.getLast?_append_of_ne_nil _ (by simp)] at he
                obtain rfl : ']' = e := by simpa using he
                decide
              · intro r' g hstop hg
                rcases g with _ | g1
                · simp only [pvNeed] at hg; omega
                · have hstop1 : stopOk (w2 ++ (']' :: r')) :=
                    stopOk_ws_append hw2all (stopOk_rbrack _)
                  have hx1r := hx1ext (w2 ++ (']' :: r')) g1 hstop1
                    (by simp only [pvNeed, List.length_append, List.length_cons] at hg ⊢
                        omega)
                  have hsk1 : skipWs (w2 ++ (']' :: r')) = ']' :: r' :=
                    skipWs_append_all hw2all (Or.inr ⟨']', r', rfl, by decide⟩)
                  simp only [List.cons_append, List.append_assoc] at hx1r hsk1 ⊢
                  simp [pv, hx1r, hsk1]
            · rw [if_neg hd2b] at h
              simp at h
    | objLoop acc =>
      rcases cs with _ | ⟨c, rest0⟩
      · simp [pv] at h
      · simp only [pv] at h
        by_cases hq : c = '"'
        · rw [if_pos hq] at h
          subst hq
          rcases hps : parseStrAux (rest0.length + 1) rest0 with _ | ⟨key, r1⟩
          · rw [hps] at h; simp at h
          · rw [hps] at h
            dsimp only [] at h
            obtain ⟨xk, hkEq, hkNe, hkLast, -, hkExt⟩ := parseStrAux_consumed _ _ _ _ hps
            obtain ⟨w1, hw1eq, hw1all⟩ := skipWs_decomp r1
            rcases hm1 : skipWs r1 with _ | ⟨d2, r2⟩
            · rw [hm1] at h; simp at h
            · rw [hm1] at h
              rw [hm1] at hw1eq
              dsimp only [] at h
              by_cases hd2 : d2 = ':'
              · rw [if_pos hd2] at h
                subst hd2
                obtain ⟨w2, hw2eq, hw2all⟩ := skipWs_decomp r2
                rcases hv2 : pv n PMode.top (skipWs r2) with _ | ⟨vv, r3⟩
                · rw [hv2] at h; simp at h
                · rw [hv2] at h
                  dsimp only [] at h
                  obtain ⟨xv, dv, xvt, hxveq, hxvcons, hxvvs, -, hxvlast, hxvext⟩ :=
                    IH PMode.top (skipWs r2) vv r3 hv2
                  subst hxvcons
                  rw [hxveq] at hw2eq
                  obtain ⟨w3, hw3eq, hw3all⟩ := skipWs_decomp r3
                  rcases hm3 : skipWs r3 with _ | ⟨d3, r4⟩
                  · rw [hm3] at h; simp at h
                  · rw [hm3] at h
                    rw [hm3] at hw3eq
                    dsimp only [] at h
                    by_cases hd3 : d3 = ','
                    · rw [if_pos hd3] at h
                      subst hd3
                      obtain ⟨w4, hw4eq, hw4all⟩ := skipWs_decomp r4
                      obtain ⟨x5, d5, xt5, hx5eq, hx5cons, hx5vs, hx5obj, hx5last, hx5ext⟩ :=
                        IH (PMode.objLoop (insertKV acc (String.mk key) vv)) (skipWs r4) v rest h
                      subst hx5cons
                      rw [hx5eq] at hw4eq
                      have hd5 : d5 = '"' := hx5obj _ rfl
                      subst hd5
                      subst hw4eq
                      subst hw3eq
                      subst hw2eq
                      subst hw1eq
                      subst hkEq
                      refine ⟨'"' :: (xk ++ (w1 ++ (':' :: (w2 ++ ((dv :: xvt) ++
                          (w3 ++ (',' :: (w4 ++ ('"' :: xt5))))))))), '"', _,
                        by simp, rfl, Or.inl rfl, fun acc2 hacc => rfl, ?_, ?_⟩
                      · intro e he
                        rw [getLast?_cons_of_ne (by simp),
                          List.getLast?_append_of_ne_nil _ (by simp),
                          List.getLast?_append_of_ne_nil _ (by simp),
                          getLast?_cons_of_ne (by simp),
                          List.getLast?_append_of_ne_nil _ (by simp),
                          List.getLast?_append_of_ne_nil _ (by simp),
                          List.getLast?_append_of_ne_nil _ (by simp),
                          getLast?_cons_of_ne (by simp),
                          List.getLast?_append_of_ne_nil _ (by simp)] at he
                        exact hx5last e he
                      · intro r' g hstop hg
                        rcases g with _ | g1
                        · simp only [pvNeed] at hg; omega
                        · have hstop3 : stopOk (w3 ++ (',' :: (w4 ++ (('"' :: xt5) ++ r')))) :=
                            stopOk_ws_append hw3all (stopOk_comma _)
                          have hxvr := hxvext (w3 ++ (',' :: (w4 ++ (('"' :: xt5) ++ r')))) g1
                            hstop3
                            (by simp only [pvNeed, List.length_append, List.length_cons] at hg ⊢
                                omega)
                          have hx5r := hx5ext r' g1 hstop
                            (by simp only [pvNeed, List.length_append, List.length_cons] at hg ⊢
                                omega)
                          have hkr := hkExt
                            (w1 ++ (':' :: (w2 ++ ((dv :: xvt) ++
                              (w3 ++ (',' :: (w4 ++ (('"' :: xt5) ++ r'))))))))
                            ((xk ++ (w1 ++ (':' :: (w2 ++ ((dv :: xvt) ++
                              (w3 ++ (',' :: (w4 ++ (('"' :: xt5) ++ r'))))))))).length + 1)
                            (by omega)
                          have hsk1 : skipWs (w1 ++ (':' :: (w2 ++ ((dv :: xvt) ++
                              (w3 ++ (',' :: (w4 ++ (('"' :: xt5) ++ r'))))))))
                              = ':' :: (w2 ++ ((dv :: xvt) ++
                                (w3 ++ (',' :: (w4 ++ (('"' :: xt5) ++ r')))))) :=
                            skipWs_append_all hw1all (Or.inr ⟨':', _, rfl, by decide⟩)
                          have hsk2 : skipWs (w2 ++ ((dv :: xvt) ++
                              (w3 ++ (',' :: (w4 ++ (('"' :: xt5) ++ r'))))))
                              = (dv :: xvt) ++ (w3 ++ (',' :: (w4 ++ (('"' :: xt5) ++ r')))) :=
                            skipWs_append_all hw2all
                              (Or.inr ⟨dv, _, rfl, valueStart_jWs_false hxvvs⟩)
                          have hsk3 : skipWs (w3 ++ (',' :: (w4 ++ (('"' :: xt5) ++ r'))))
                              = ',' :: (w4 ++ (('"' :: xt5) ++ r')) :=
                            skipWs_append_all hw3all (Or.inr ⟨',', _, rfl, by decide⟩)
                          have hsk4 : skipWs (w4 ++ (('"' :: xt5) ++ r')) = ('"' :: xt5) ++ r' :=
                            skipWs_append_all hw4all (Or.inr ⟨'"', _, rfl, by decide⟩)
                          simp only [List.cons_append, List.append_assoc, List.length_append,
                            List.length_cons] at hkr hsk1 hsk2 hsk3 hsk4 hxvr hx5r ⊢
                          simp [pv, hkr, hsk1, hsk2, hsk3, hsk4, hxvr, hx5r]
                    · rw [if_neg hd3] at h
                      by_cases hd3b : d3 = '\x7d'
                      · rw [if_pos hd3b] at h
                        subst hd3b
                        obtain ⟨hv, hrest⟩ :
                            Json.obj (insertKV acc (String.mk key) vv) = v ∧ r4 = rest := by
                          simpa using h
                        subst hv
                        subst hrest
                        subst hw3eq
                        subst hw2eq
                        subst hw1eq
                        subst hkEq
                        refine ⟨'"' :: (xk ++ (w1 ++ (':' :: (w2 ++ ((dv :: xvt) ++
                            (w3 ++ ['\x7d'])))))), '"', _,
                          by simp, rfl, Or.inl rfl, fun acc2 hacc => rfl, ?_, ?_⟩
                        · intro e he
                          rw [getLast?_cons_of_ne (by simp),
                            List.getLast?_append_of_ne_nil _ (by simp),
                            List.getLast?_append_of_ne_nil _ (by simp),
                            getLast?_cons_of_ne (by simp),
                            List.getLast?_append_of_ne_nil _ (by simp),
                            List.getLast?_append_of_ne_nil _ (by simp),
                            List.getLast?_append_of_ne_nil _ (by simp)] at he
                          obtain rfl : '\x7d' = e := by simpa using he
                          decide
                        · intro r' g hstop hg
                          rcases g with _ | g1
                          · simp only [pvNeed] at hg; omega
                          · have hstop3 : stopOk (w3 ++ ('\x7d' :: r')) :=
                              stopOk_ws_append hw3all (stopOk_rbrace _)
                            have hxvr := hxvext (w3 ++ ('\x7d' :: r')) g1 hstop3
                              (by simp only [pvNeed, List.length_append, List.length_cons] at hg ⊢
                                  omega)
                            have hkr := hkExt
                              (w1 ++ (':' :: (w2 ++ ((dv :: xvt) ++ (w3 ++ ('\x7d' :: r'))))))
                              ((xk ++ (w1 ++ (':' :: (w2 ++ ((dv :: xvt) ++
                                (w3 ++ ('\x7d' :: r'))))))).length + 1)
                              (by omega)
                            have hsk1 : skipWs (w1 ++ (':' :: (w2 ++ ((dv :: xvt) ++
                                (w3 ++ ('\x7d' :: r'))))))
                                = ':' :: (w2 ++ ((dv :: xvt) ++ (w3 ++ ('\x7d' :: r')))) :=
                              skipWs_append_all hw1all (Or.inr ⟨':', _, rfl, by decide⟩)
                            have hsk2 : skipWs (w2 ++ ((dv :: xvt) ++ (w3 ++ ('\x7d' :: r'))))
                                = (dv :: xvt) ++ (w3 ++ ('\x7d' :: r')) :=
                              skipWs_append_all hw2all
                                (Or.inr ⟨dv, _, rfl, valueStart_jWs_false hxvvs⟩)
                            have hsk3 : skipWs (w3 ++ ('\x7d' :: r')) = '\x7d' :: r' :=
                              skipWs_append_all hw3all (Or.inr ⟨'\x7d', r', rfl, by decide⟩)
                            simp only [List.cons_append, List.append_assoc, List.length_append,
                              List.length_cons] at hkr hsk1 hsk2 hsk3 hxvr ⊢
                            simp [pv, hkr, hsk1, hsk2, hsk3, hxvr]
                      · rw [if_neg hd3b] at h
                        simp at h
              · rw [if_neg hd2] at h
                simp at h
        · rw [if_neg hq] at h
          simp at h

/-! ## Whitespace stripping is absorbed by the decoder -/

theorem loads_pyStripL {raw : String} {v : Json}
    (h : loads raw = some v) :
    loads (String.mk (pyStripL raw.data)) = some v := by
  unfold loads at h
  rcases hv : pv (2 * raw.length + 8) PMode.top (skipWs raw.data) with _ | ⟨v1, rest⟩
  · rw [hv] at h; simp at h
  · rw [hv] at h
    dsimp only [] at h
    by_cases hr : skipWs rest = []
    · rw [if_pos hr] at h
      obtain rfl : v1 = v := by simpa using h
      obtain ⟨x, d, xt, hxeq, hxcons, hxvs, -, hxlast, hxext⟩ :=
        pv_consumed _ _ _ _ _ hv
      subst hxcons
      obtain ⟨w, hweq, hwall⟩ := skipWs_decomp raw.data
      rw [hxeq] at hweq
      have hwpy : ∀ a ∈ w, pyWs a = true := fun a ha => pyWs_of_jWs (hwall a ha)
      have hrestpy : ∀ c ∈ rest, pyWs c = true :=
        fun c hc => pyWs_of_jWs (skipWs_nil_all hr c hc)
      have hdpw : pyWs d = false := valueStart_pyWs_false hxvs
      have hdrop : List.dropWhile pyWs raw.data = (d :: xt) ++ rest := by
        rw [hweq]
        exact (takeWhile_append_all hwpy (Or.inr ⟨d, xt ++ rest, rfl, hdpw⟩)).2
      have hstrip : pyStripL raw.data = d :: xt := by
        unfold pyStripL
        rw [hdrop]
        exact rdropWhile_append_all (by simp) hxlast hrestpy
      have hext := hxext [] (2 * (xt.length + 1) + 8) (Or.inl rfl)
        (by simp only [pvNeed, List.append_nil, List.length_cons]; omega)
      rw [List.append_nil] at hext
      rw [hstrip]
      unfold loads
      have hsk : skipWs (String.mk (d :: xt)).data = d :: xt := by
        show skipWs (d :: xt) = d :: xt
        unfold skipWs
        rw [List.dropWhile_cons_of_neg (by simp [valueStart_jWs_false hxvs])]
      have hlen : (String.mk (d :: xt)).length = xt.length + 1 := by
        show (d :: xt).length = xt.length + 1
        simp
      rw [hsk, hlen, hext]
      rfl
    · rw [if_neg hr] at h; simp at h

/-! ## Claims -/

/-- C3: when the credential is absent from process-wide state, `explain`
fails with the ConfigurationError (HTTP 500, fixed detail message) and the
external completion capability is never invoked (zero upstream calls), in
both copies of the handler. -/
theorem C3_missing_credential_no_upstream_call (t : String) (u : String → Upstream) :
    Main.explain_topic none t u
      = ⟨ExplainResult.httpError 500 "API Key not configured.", 0⟩ ∧
    ApiIndex.explain_topic none t u
      = ⟨ExplainResult.httpError 500 "API Key not configured.", 0⟩ :=
  ⟨rfl, rfl⟩

/-- C9: a `GOOGLE_API_KEY` set to the empty string is falsy in Python, so
`explain` behaves exactly as in the credential-absent case: same
ConfigurationError, and the external capability is never invoked. -/
theorem C9_empty_credential_like_missing (t : String) (u v : String → Upstream) :
    Main.explain_topic (some "") t u = Main.explain_topic none t v ∧
    Main.explain_topic (some "") t u
      = ⟨ExplainResult.httpError 500 "API Key not configured.", 0⟩ ∧
    ApiIndex.explain_topic (some "") t u
      = ⟨ExplainResult.httpError 500 "API Key not configured.", 0⟩ :=
  ⟨rfl, rfl, rfl⟩

/-- C4: when the external completion call fails, `explain` returns HTTP 500
whose detail is the underlying error message verbatim, no ExplanationResult
is produced, and the upstream capability is invoked exactly once (no
retry), in both copies of the handler. -/
theorem C4_upstream_failure_verbatim (k : Option String) (t e : String)
    (u1 u2 : String → Upstream) (hk : keyTruthy k = true)
    (h1 : u1 (Main.fullPrompt t) = Upstream.fail e)
    (h2 : u2 (ApiIndex.fullPrompt t) = Upstream.fail e) :
    Main.explain_topic k t u1 = ⟨ExplainResult.httpError 500 e, 1⟩ ∧
    ApiIndex.explain_topic k t u2 = ⟨ExplainResult.httpError 500 e, 1⟩ :=
  ⟨explainWith_fail _ hk h1, explainWith_fail _ hk h2⟩

/-- Witness for C4 at a concrete key, topic and failing upstream. -/
theorem C4_upstream_failure_verbatim_witness :
    Main.explain_topic (some "key") "gravity" (fun _ => Upstream.fail "boom")
      = ⟨ExplainResult.httpError 500 "boom", 1⟩ ∧
    ApiIndex.explain_topic (some "key") "gravity" (fun _ => Upstream.fail "boom")
      = ⟨ExplainResult.httpError 500 "boom", 1⟩ :=
  C4_upstream_failure_verbatim (some "key") "gravity" "boom"
    (fun _ => Upstream.fail "boom") (fun _ => Upstream.fail "boom") rfl rfl rfl

/-- C10: the post-call processing is deterministic — two runs whose upstream
responses carry the same raw text return equal results, across different
credentials, topics, oracles, and even across the two handler copies. -/
theorem C10_postprocessing_deterministic (k1 k2 : Option String) (t1 t2 raw : String)
    (u1 u2 : String → Upstream) (hk1 : keyTruthy k1 = true) (hk2 : keyTruthy k2 = true)
    (h1 : u1 (Main.fullPrompt t1) = Upstream.ok raw)
    (h2 : u2 (ApiIndex.fullPrompt t2) = Upstream.ok raw) :
    (Main.explain_topic k1 t1 u1).result = (ApiIndex.explain_topic k2 t2 u2).result := by
  rw [show Main.explain_topic k1 t1 u1 = _ from explainWith_ok _ hk1 h1,
      show ApiIndex.explain_topic k2 t2 u2 = _ from explainWith_ok _ hk2 h2]

/-- Witness for C10 at concrete diverging keys and topics with one raw text. -/
theorem C10_postprocessing_deterministic_witness :
    (Main.explain_topic (some "k1") "topic one" (fun _ => Upstream.ok "same raw")).result
      = (ApiIndex.explain_topic (some "k2") "topic two" (fun _ => Upstream.ok "same raw")).result :=
  C10_postprocessing_deterministic (some "k1") (some "k2") "topic one" "topic two" "same raw"
    (fun _ => Upstream.ok "same raw") (fun _ => Upstream.ok "same raw") rfl rfl rfl rfl

/-- C2: when the cleaned upstream text is not valid JSON, `explain` returns
exactly the fixed six-field fallback object, with `human_connection`
carrying the cleaned raw text. -/
theorem C2_parse_failure_fallback (k : Option String) (t raw : String)
    (u : String → Upstream) (hk : keyTruthy k = true)
    (hu : u (Main.fullPrompt t) = Upstream.ok raw)
    (hbad : loads (clean raw) = none) :
    (Main.explain_topic k t u).result = ExplainResult.ok (fallbackJson (clean raw)) := by
  rw [show Main.explain_topic k t u = _ from explainWith_ok _ hk hu]
  simp [postProcess, hbad]

/-- Witness for C2 at the spec's own scenario text `I am not JSON`. -/
theorem C2_parse_failure_fallback_witness :
    loads (clean "I am not JSON") = none ∧
    clean "I am not JSON" = "I am not JSON" ∧
    (Main.explain_topic (some "key") "anything" (fun _ => Upstream.ok "I am not JSON")).result
      = ExplainResult.ok (fallbackJson (clean "I am not JSON")) :=
  ⟨rfl, rfl, C2_parse_failure_fallback (some "key") "anything" "I am not JSON"
    (fun _ => Upstream.ok "I am not JSON") rfl rfl rfl⟩

/-- C8: when the cleaned text parses as JSON that is not an object (a bare
number, array, string, ...), `explain` returns that parsed value as-is; the
fallback is triggered only by a decode failure, never by the value's shape. -/
theorem C8_non_object_passthrough (k : Option String) (t raw : String)
    (u : String → Upstream) (v : Json) (hk : keyTruthy k = true)
    (hu : u (Main.fullPrompt t) = Upstream.ok raw)
    (hv : loads (clean raw) = some v) (_hnotObj : isObj v = false) :
    (Main.explain_topic k t u).result = ExplainResult.ok v := by
  rw [show Main.explain_topic k t u = _ from explainWith_ok _ hk hu]
  simp [postProcess, hv]

/-- Witness for C8 at the bare number `5`. -/
theorem C8_non_object_passthrough_witness :
    loads (clean "5") = some (Json.num "5") ∧
    isObj (Json.num "5") = false ∧
    (Main.explain_topic (some "key") "gravity" (fun _ => Upstream.ok "5")).result
      = ExplainResult.ok (Json.num "5") :=
  ⟨rfl, rfl, C8_non_object_passthrough (some "key") "gravity" "5"
    (fun _ => Upstream.ok "5") (Json.num "5") rfl rfl rfl rfl⟩

/-- C1 counterexample: the upstream text `\x7b\x7d` is a valid JSON object,
so the parse-success branch returns it — an ExplanationResult without any
of the six keys, refuting the six-key invariant as stated. -/
theorem C1_counterexample :
    (Main.explain_topic (some "key") "gravity" (fun _ => Upstream.ok "\x7b\x7d")).result
      = ExplainResult.ok (Json.obj []) ∧
    hasSixKeys (Json.obj []) = false :=
  ⟨rfl, rfl⟩

/-- C1 amended: every result produced by the parse-failure fallback branch
has all six keys present; the parse-success branch returns the decoded
value unvalidated, so its results may lack them. -/
theorem C1_fallback_branch_six_keys (k : Option String) (t raw : String)
    (u : String → Upstream) (hk : keyTruthy k = true)
    (hu : u (Main.fullPrompt t) = Upstream.ok raw)
    (hbad : loads (clean raw) = none) :
    (Main.explain_topic k t u).result = ExplainResult.ok (fallbackJson (clean raw)) ∧
    hasSixKeys (fallbackJson (clean raw)) = true := by
  refine ⟨?_, rfl⟩
  rw [show Main.explain_topic k t u = _ from explainWith_ok _ hk hu]
  simp [postProcess, hbad]

/-- Witness for amended C1 at a non-JSON upstream text. -/
theorem C1_fallback_branch_six_keys_witness :
    loads (clean "plain prose") = none ∧
    (Main.explain_topic (some "key") "gravity" (fun _ => Upstream.ok "plain prose")).result
      = ExplainResult.ok (fallbackJson (clean "plain prose")) ∧
    hasSixKeys (fallbackJson (clean "plain prose")) = true := by
  refine ⟨rfl, ?_, ?_⟩
  · exact (C1_fallback_branch_six_keys (some "key") "gravity" "plain prose"
      (fun _ => Upstream.ok "plain prose") rfl rfl rfl).1
  · exact (C1_fallback_branch_six_keys (some "key") "gravity" "plain prose"
      (fun _ => Upstream.ok "plain prose") rfl rfl rfl).2

set_option maxRecDepth 40000 in
/-- C7 counterexample: the system instruction block quoted in the spec is
not reproduced verbatim in the composed prompt — it is not even a prefix of
either handler's prompt, and the two source copies of the block also differ
from the spec's text and from each other. -/
theorem C7_counterexample :
    specSystemInstruction.data.isPrefixOf (Main.fullPrompt "gravity").data = false ∧
    specSystemInstruction.data.isPrefixOf (ApiIndex.fullPrompt "gravity").data = false ∧
    Main.SYSTEM_PROMPT ≠ specSystemInstruction ∧
    Main.SYSTEM_PROMPT ≠ ApiIndex.SYSTEM_PROMPT := by
  refine ⟨rfl, rfl, ?_, ?_⟩ <;> decide

/-- C7 amended: for every topic, the composed prompt is the concatenation,
in order, of the file's own fixed instruction block, the topic (after the
fixed `USER TOPIC` separator), and the directive to respond in JSON; and
the handler observes the upstream oracle only at that composed prompt. -/
theorem C7_prompt_concatenation (topic : String) (k : Option String)
    (u1 u2 : String → Upstream)
    (hagree : u1 (Main.fullPrompt topic) = u2 (Main.fullPrompt topic)) :
    Main.fullPrompt topic
      = Main.SYSTEM_PROMPT ++ "\n\nUSER TOPIC: " ++ topic ++ "\n\nRespond in JSON." ∧
    ApiIndex.fullPrompt topic
      = ApiIndex.SYSTEM_PROMPT ++ "\n\nUSER TOPIC: " ++ topic ++ "\n\nRespond in JSON." ∧
    Main.explain_topic k topic u1 = Main.explain_topic k topic u2 := by
  refine ⟨rfl, rfl, ?_⟩
  show explainWith Main.SYSTEM_PROMPT k topic u1 = explainWith Main.SYSTEM_PROMPT k topic u2
  unfold explainWith
  rw [show u1 (fullPromptWith Main.SYSTEM_PROMPT topic)
        = u2 (fullPromptWith Main.SYSTEM_PROMPT topic) from hagree]

/-- Witness for amended C7 at a concrete topic and agreeing oracles. -/
theorem C7_prompt_concatenation_witness :
    Main.fullPrompt "gravity"
      = Main.SYSTEM_PROMPT ++ "\n\nUSER TOPIC: " ++ "gravity" ++ "\n\nRespond in JSON." ∧
    ApiIndex.fullPrompt "gravity"
      = ApiIndex.SYSTEM_PROMPT ++ "\n\nUSER TOPIC: " ++ "gravity" ++ "\n\nRespond in JSON." ∧
    Main.explain_topic (some "key") "gravity" (fun _ => Upstream.fail "x")
      = Main.explain_topic (some "key") "gravity" (fun _ => Upstream.fail "x") :=
  C7_prompt_concatenation "gravity" (some "key")
    (fun _ => Upstream.fail "x") (fun _ => Upstream.fail "x") rfl

/-- C5 counterexample: a raw upstream output that is a valid JSON object but
contains the fence opener inside a string value; the global replacements
mangle it, so `explain` returns a different object than the one the raw text
denotes — round-trip identity fails. -/
theorem C5_counterexample :
    loads "\x7b\"a\": \"\x60\x60\x60json\"\x7d"
      = some (Json.obj [("a", Json.str "\x60\x60\x60json")]) ∧
    (Main.explain_topic (some "key") "gravity"
        (fun _ => Upstream.ok "\x7b\"a\": \"\x60\x60\x60json\"\x7d")).result
      = ExplainResult.ok (Json.obj [("a", Json.str "")]) ∧
    Json.obj [("a", Json.str "")] ≠ Json.obj [("a", Json.str "\x60\x60\x60json")] := by
  refine ⟨rfl, rfl, ?_⟩
  intro h
  simp only [Json.obj.injEq, List.cons.injEq, Prod.mk.injEq, Json.str.injEq, and_true,
    true_and] at h
  exact absurd h (by decide)

/-- C5 amended: for every raw upstream output that contains no
triple-backtick sequence and that is a valid JSON object, `explain` returns
exactly that object (round-trip identity); surrounding whitespace is
harmless because both the cleanup and the decoder discard it. -/
theorem C5_round_trip_object (k : Option String) (t raw : String)
    (u : String → Upstream) (kvs : List (String × Json)) (hk : keyTruthy k = true)
    (hu : u (Main.fullPrompt t) = Upstream.ok raw)
    (hnt : hasOcc ticks3 raw.data = false)
    (hobj : loads raw = some (Json.obj kvs)) :
    (Main.explain_topic k t u).result = ExplainResult.ok (Json.obj kvs) := by
  have hnf : hasOcc fence7 raw.data = false := hasOcc_fence_false_of_ticks hnt
  have hcl : clean raw = String.mk (pyStripL raw.data) := by
    show String.mk (cleanL raw.data) = _
    unfold cleanL
    rw [stripJsonFence_id_of_no_occ hnf, stripTicks_id_of_no_occ hnt]
  rw [show Main.explain_topic k t u = _ from explainWith_ok _ hk hu]
  simp [postProcess, hcl, loads_pyStripL hobj]

/-- Witness for amended C5 at a concrete two-key object carrying leading and
trailing whitespace around the JSON text. -/
theorem C5_round_trip_object_witness :
    hasOcc ticks3 (" \x7b\"a\": true, \"b\": \"x\"\x7d\n").data = false ∧
    loads " \x7b\"a\": true, \"b\": \"x\"\x7d\n"
      = some (Json.obj [("a", Json.bool true), ("b", Json.str "x")]) ∧
    (Main.explain_topic (some "key") "gravity"
        (fun _ => Upstream.ok " \x7b\"a\": true, \"b\": \"x\"\x7d\n")).result
      = ExplainResult.ok (Json.obj [("a", Json.bool true), ("b", Json.str "x")]) :=
  ⟨rfl, rfl, C5_round_trip_object (some "key") "gravity"
    " \x7b\"a\": true, \"b\": \"x\"\x7d\n"
    (fun _ => Upstream.ok " \x7b\"a\": true, \"b\": \"x\"\x7d\n")
    [("a", Json.bool true), ("b", Json.str "x")] rfl rfl rfl rfl⟩

/-- C6: wrapping the raw output in the code-fence markers does not change
what `explain` returns — the cleanup of the fenced text equals the cleanup
of the bare text — and the cleanup is idempotent on every string. -/
theorem C6_fence_cleanup_equivalence (k : Option String) (t s r : String)
    (u1 u2 : String → Upstream) (hk : keyTruthy k = true)
    (h1 : u1 (Main.fullPrompt t) = Upstream.ok ("\x60\x60\x60json" ++ s ++ "\x60\x60\x60"))
    (h2 : u2 (Main.fullPrompt t) = Upstream.ok s) :
    Main.explain_topic k t u1 = Main.explain_topic k t u2 ∧
    clean (clean r) = clean r := by
  refine ⟨?_, clean_idem r⟩
  rw [show Main.explain_topic k t u1 = _ from explainWith_ok _ hk h1,
      show Main.explain_topic k t u2 = _ from explainWith_ok _ hk h2]
  simp [postProcess, clean_fenced s]

/-- Witness for C6: fenced and bare versions of one concrete object, and
idempotence at a concrete noisy string. -/
theorem C6_fence_cleanup_equivalence_witness :
    Main.explain_topic (some "key") "gravity"
        (fun _ => Upstream.ok ("\x60\x60\x60json" ++ "\x7b\"a\": 1\x7d" ++ "\x60\x60\x60"))
      = Main.explain_topic (some "key") "gravity"
        (fun _ => Upstream.ok "\x7b\"a\": 1\x7d") ∧
    clean (clean "  \x60\x60\x60json x \x60\x60\x60  ")
      = clean "  \x60\x60\x60json x \x60\x60\x60  " :=
  C6_fence_cleanup_equivalence (some "key") "gravity" "\x7b\"a\": 1\x7d"
    "  \x60\x60\x60json x \x60\x60\x60  "
    (fun _ => Upstream.ok ("\x60\x60\x60json" ++ "\x7b\"a\": 1\x7d" ++ "\x60\x60\x60"))
    (fun _ => Upstream.ok "\x7b\"a\": 1\x7d") rfl rfl rfl

example : loads "true" = some (Json.bool true) := rfl
example : loads " \x7b\"a\": 1\x7d " = some (Json.obj [("a", Json.num "1")]) := rfl
example : loads "I am not JSON" = none := rfl
example : clean "\x60\x60\x60json\n\x7b\x7d\n\x60\x60\x60" = "\x7b\x7d" := rfl
example : clean "\x7b\"a\":1\x7d\xa0" = "\x7b\"a\":1\x7d" := rfl
example :
    (Main.explain_topic (some "key") "gravity"
        (fun _ => Upstream.ok "\x7b\"a\":1\x7d\xa0")).result
      = ExplainResult.ok (Json.obj [("a", Json.num "1")]) := rfl
example : loads "\"\\ud800\"" = some (Json.str "\x00") := rfl
example : loads "\"\\ud83d\\ude00\"" = some (Json.str "😀") := rfl
